import Mathlib

/-!
Verification of the book-recommendation core (src/core of the repository)
against its natural-language specification.

The embedding models, faithfully to the Python source:
  - the domain records (src/core/domain.py),
  - the content-based scoring function and its memoization wrapper
    (src/core/memo.py), with the functools lru_cache modelled as an
    explicit LRU state (CPython semantics: structural keys, hit and miss
    counters, eviction of the least recently used entry, cache_clear
    resetting both the entries and the counters),
  - the batch engine of src/core/async_utils.py (AsyncRecoEngine), with
    the thread-pool fan-out modelled as a sequential fold over the user
    list, and per-user exceptions modelled with Except,
  - the user-statistics aggregation of AsyncRecoService.

Python floats are modelled as exact rationals.
-/

namespace BookReco

/-- Book record from src/core/domain.py, a frozen dataclass. -/
structure Book where
  id : String
  title : String
  author : String
  genre : String
  year : Int
  rating : ℚ
deriving DecidableEq, Repr

/-- Rating record from src/core/domain.py, a frozen dataclass. -/
structure Rating where
  user_id : String
  book_id : String
  value : Int
deriving DecidableEq, Repr

/-- Recommendation record from src/core/services.py. -/
structure Recommendation where
  book_id : String
  title : String
  author : String
  genre : String
  score : ℚ
  reason : String
deriving DecidableEq, Repr

/-- One scored tuple (book_id, title, author, genre, final_score) as built by
recommend_for_user_cached in src/core/memo.py. -/
structure ScoredBook where
  book_id : String
  title : String
  author : String
  genre : String
  score : ℚ
deriving DecidableEq, Repr

/-- Result of calculate_user_profile in src/core/memo.py.  The Python code
builds sets of authors and genres; only membership in them is ever used, so
they are modelled as lists queried by membership. -/
structure UserProfile where
  preferred_authors : List String
  preferred_genres : List String
  rated_books : List String
deriving DecidableEq, Repr

/-- avg_rating_for_book from src/core/transforms.py: the mean of the values of
the ratings of the given book, and 0.0 when the book has no ratings. -/
def avg_rating_for_book (ratings : List Rating) (book_id : String) : ℚ :=
  let book_ratings := ratings.filter (fun r => r.book_id == book_id)
  if book_ratings.isEmpty then 0
  else ((book_ratings.map (fun r => (r.value : ℚ))).sum) / book_ratings.length

/-- calculate_user_profile from src/core/memo.py: the authors and genres of the
catalog books the user rated with value at least 4 (looked up by first id
match), and the ids of all books the user rated, regardless of value. -/
def calculate_user_profile (user_id : String) (ratings : List Rating)
    (books : List Book) : UserProfile :=
  let user_ratings := ratings.filter (fun r => r.user_id == user_id)
  let pref_books := (user_ratings.filter (fun r => r.value ≥ 4)).filterMap
    (fun r => books.find? (fun b => b.id == r.book_id))
  { preferred_authors := pref_books.map (fun b => b.author)
    preferred_genres := pref_books.map (fun b => b.genre)
    rated_books := user_ratings.map (fun r => r.book_id) }

/-- calculate_book_similarity from src/core/memo.py: 2.0 for an author match
plus 1.5 for a genre match, normalized by the maximum 3.5. -/
def calculate_book_similarity (book : Book) (profile : UserProfile) : ℚ :=
  ((if book.author ∈ profile.preferred_authors then (2 : ℚ) else 0)
    + (if book.genre ∈ profile.preferred_genres then (3 / 2 : ℚ) else 0)) / (7 / 2)

/-- Scored candidates built by recommend_for_user_cached before sorting: every
catalog book not in the rated set, with final_score = similarity multiplied by
0.7 plus the average rating of the book divided by 5 multiplied by 0.3. -/
def candidate_scores (user_id : String) (ratings : List Rating)
    (books : List Book) : List ScoredBook :=
  let profile := calculate_user_profile user_id ratings books
  let unrated_books := books.filter (fun b => !(profile.rated_books.contains b.id))
  unrated_books.map (fun b =>
    { book_id := b.id, title := b.title, author := b.author, genre := b.genre
      score := calculate_book_similarity b profile * (7 / 10)
        + (avg_rating_for_book ratings b.id / 5) * (3 / 10) })

/-- Insertion step of the stable descending sort: an element is placed after
every earlier element with a strictly larger or equal score coming before it,
matching the stability of the Python list sort with reverse set. -/
def insertDesc (x : ScoredBook) : List ScoredBook → List ScoredBook
  | [] => [x]
  | y :: ys => if x.score < y.score then y :: insertDesc x ys else x :: y :: ys

/-- Stable descending sort by score, the model of
book_scores.sort(key, reverse) in src/core/memo.py. -/
def sortByScoreDesc : List ScoredBook → List ScoredBook
  | [] => []
  | x :: xs => insertDesc x (sortByScoreDesc xs)

/-- Body of recommend_for_user_cached in src/core/memo.py: score the unrated
catalog books, sort descending by score (stable), keep the first 10. -/
def recommend_compute (user_id : String) (ratings : List Rating)
    (books : List Book) : List ScoredBook :=
  (sortByScoreDesc (candidate_scores user_id ratings books)).take 10

/-- Cache key of the lru_cache wrapper around recommend_for_user_cached: the
argument tuple (user_id, ratings_index, books_index).  Python hashes and
compares the tuple structurally, since Book and Rating are frozen dataclasses,
so the key is the content of the arguments.  Note that k is not part of it. -/
abbrev RecoKey := String × List Rating × List Book

/-- Compute function behind the cache, uncurried over the key. -/
def recoCompute (key : RecoKey) : List ScoredBook :=
  recommend_compute key.1 key.2.1 key.2.2

/-- State of a functools lru_cache: the stored entries with the most recently
used first, the cumulative hit and miss counters, and the maxsize bound. -/
structure LruCache (κ ν : Type) where
  entries : List (κ × ν)
  hits : Nat
  misses : Nat
  maxsize : Nat
deriving Repr

/-- Lookup of a key among the stored entries. -/
def cacheFind [DecidableEq κ] (key : κ) : List (κ × ν) → Option ν
  | [] => none
  | e :: es => if e.1 = key then some e.2 else cacheFind key es

/-- Removal of the first entry with the given key. -/
def cacheRemove [DecidableEq κ] (key : κ) : List (κ × ν) → List (κ × ν)
  | [] => []
  | e :: es => if e.1 = key then es else e :: cacheRemove key es

/-- One lru_cache call (CPython semantics): on a hit the entry moves to the
most recently used position and the hit counter increments; on a miss the
value is computed, stored at the most recently used position, the miss counter
increments, and the least recently used entry is dropped when the size would
exceed maxsize. -/
def LruCache.getOrCompute [DecidableEq κ] (c : LruCache κ ν) (key : κ)
    (compute : κ → ν) : ν × LruCache κ ν :=
  match cacheFind key c.entries with
  | some v =>
      (v, { c with
            entries := (key, v) :: cacheRemove key c.entries
            hits := c.hits + 1 })
  | none =>
      let v := compute key
      let es := (key, v) :: c.entries
      (v, { c with
            entries := if es.length > c.maxsize then es.dropLast else es
            misses := c.misses + 1 })

/-- cache_clear of a functools lru_cache, called by clear_cache in
src/core/memo.py.  CPython docstring: clear the cache and cache statistics;
the entries are dropped and the hit and miss counters are reset to zero. -/
def LruCache.clear (c : LruCache κ ν) : LruCache κ ν :=
  { c with entries := [], hits := 0, misses := 0 }

/-- Size reported by cache_info as currsize. -/
def LruCache.currsize (c : LruCache κ ν) : Nat := c.entries.length

/-- The cache created by the lru_cache decorator in src/core/memo.py with
maxsize 128, empty at module load. -/
def initCache : LruCache RecoKey (List ScoredBook) :=
  { entries := [], hits := 0, misses := 0, maxsize := 128 }

/-- recommend_for_user_cached from src/core/memo.py as a state passing
function: one cached call keyed by (user_id, ratings, books). -/
def recommend_for_user_cached (c : LruCache RecoKey (List ScoredBook))
    (user_id : String) (ratings : List Rating) (books : List Book) :
    List ScoredBook × LruCache RecoKey (List ScoredBook) :=
  c.getOrCompute (user_id, ratings, books) recoCompute

/-- The reason string chosen by AsyncRecoEngine from the score
(src/core/async_utils.py). -/
def generate_reason (score : ℚ) : String :=
  if score > 8 / 10 then "Highly matches your reading preferences"
  else if score > 6 / 10 then "Matches your favorite book types"
  else if score > 4 / 10 then "Similar to books you like"
  else "Similar readers also like"

/-- Formatting of one scored tuple into a Recommendation record, as done in
AsyncRecoEngine in src/core/async_utils.py. -/
def formatRecommendation (s : ScoredBook) : Recommendation :=
  { book_id := s.book_id, title := s.title, author := s.author
    genre := s.genre, score := s.score, reason := generate_reason s.score }

/-- Happy path of AsyncRecoEngine single user computation
(src/core/async_utils.py): call the cached recommender, keep the first k
tuples, format them into Recommendation records. -/
def recommend_single_user (c : LruCache RecoKey (List ScoredBook))
    (user_id : String) (ratings : List Rating) (books : List Book) (k : Nat) :
    List Recommendation × LruCache RecoKey (List ScoredBook) :=
  let rc := recommend_for_user_cached c user_id ratings books
  ((rc.1.take k).map formatRecommendation, rc.2)

/-- State of an AsyncRecoEngine: the shared recommendation cache and the
shutdown flag set by shutdown(). -/
structure EngineState where
  cache : LruCache RecoKey (List ScoredBook)
  shutdown_flag : Bool

/-- A fresh AsyncRecoEngine: running, module level cache as created by the
lru_cache decorator. -/
def initEngine : EngineState := { cache := initCache, shutdown_flag := false }

/-- Sequential fold over the user list performing the per-user work of
recommend_batch; the thread pool fan-out and gather of the source is modelled
by processing the submissions in order. -/
def batchAccum (c : LruCache RecoKey (List ScoredBook)) (user_ids : List String)
    (ratings : List Rating) (books : List Book) (k : Nat) :
    List (String × List Recommendation) × LruCache RecoKey (List ScoredBook) :=
  match user_ids with
  | [] => ([], c)
  | u :: rest =>
      let rc := recommend_single_user c u ratings books k
      let tl := batchAccum rc.2 rest ratings books k
      ((u, rc.1) :: tl.1, tl.2)

/-- recommend_batch of AsyncRecoEngine in src/core/async_utils.py: fails fast
with a RuntimeError when the engine is shut down, returns the empty mapping
for an empty user list, and otherwise maps every user id to its formatted
top k recommendations computed through the shared cache. -/
def recommend_batch (s : EngineState) (user_ids : List String)
    (ratings : List Rating) (books : List Book) (k : Nat) :
    Except String (List (String × List Recommendation)) × EngineState :=
  if s.shutdown_flag then (.error "Recommendation engine is shutdown", s)
  else if user_ids.isEmpty then (.ok [], s)
  else
    let bc := batchAccum s.cache user_ids ratings books k
    (.ok bc.1, { s with cache := bc.2 })

/-- recommend_batch with the default of its k parameter in the source, 5. -/
def recommend_batch_default (s : EngineState) (user_ids : List String)
    (ratings : List Rating) (books : List Book) :
    Except String (List (String × List Recommendation)) × EngineState :=
  recommend_batch s user_ids ratings books 5

/-- shutdown of AsyncRecoEngine: shuts the executor down and sets the flag;
a second call finds the flag set and does nothing. -/
def EngineState.shutdown (s : EngineState) : EngineState :=
  if s.shutdown_flag then s else { s with shutdown_flag := true }

/-- clear_cache of src/core/memo.py lifted to the engine state. -/
def EngineState.clearCache (s : EngineState) : EngineState :=
  { s with cache := s.cache.clear }

/-- The operations a caller can perform on the engine after creation. -/
inductive EngineOp where
  | batch (user_ids : List String) (ratings : List Rating) (books : List Book) (k : Nat)
  | stop
  | clearTheCache
deriving Repr

/-- Effect of one engine operation on the engine state. -/
def applyOp (s : EngineState) : EngineOp → EngineState
  | .batch user_ids ratings books k => (recommend_batch s user_ids ratings books k).2
  | .stop => s.shutdown
  | .clearTheCache => s.clearCache

/-- Effect of a sequence of engine operations. -/
def applyOps (s : EngineState) (ops : List EngineOp) : EngineState :=
  ops.foldl applyOp s

/-- Increment of the per-user counter dictionary, modelling
dict.get(u, 0) + 1 assignment with insertion order preserved. -/
def bumpCount (m : List (String × Nat)) (u : String) : List (String × Nat) :=
  match m with
  | [] => [(u, 1)]
  | e :: rest => if e.1 = u then (e.1, e.2 + 1) :: rest else e :: bumpCount rest u

/-- The user_ratings_count dictionary of
AsyncRecoService._calculate_user_statistics in src/core/async_utils.py: a scan
over all ratings counting, for each user that appears in the batch, how many
ratings that user has.  Users of the batch with no rating never enter it. -/
def user_ratings_count (user_ids : List String) (ratings : List Rating) :
    List (String × Nat) :=
  ratings.foldl
    (fun m r => if r.user_id ∈ user_ids then bumpCount m r.user_id else m) []

/-- The three activity tiers of the user statistics. -/
structure ActivityLevels where
  high : Nat
  medium : Nat
  low : Nat
deriving DecidableEq, Repr

/-- Classification loop over the counter values: at least 10 is high, at
least 5 is medium, anything else is low. -/
def classifyActivity (counts : List Nat) : ActivityLevels :=
  counts.foldl
    (fun a c =>
      if c ≥ 10 then { a with high := a.high + 1 }
      else if c ≥ 5 then { a with medium := a.medium + 1 }
      else { a with low := a.low + 1 })
    { high := 0, medium := 0, low := 0 }

/-- The user_activity_levels value computed by
AsyncRecoService._calculate_user_statistics in src/core/async_utils.py. -/
def user_activity_levels (user_ids : List String) (ratings : List Rating) :
    ActivityLevels :=
  classifyActivity ((user_ratings_count user_ids ratings).map (fun e => e.2))

/-- Result gathering loop of AsyncRecoEngine.recommend_batch
(src/core/async_utils.py): each per-user computation either produces a
recommendation list or raises, raising is modelled with Except; a raising
user is logged and mapped to the empty list, it never aborts the batch. -/
def gather_results (f : String → Except String (List Recommendation))
    (user_ids : List String) : List (String × List Recommendation) :=
  user_ids.map (fun u => (u, match f u with | .error _ => [] | .ok v => v))

/-- Descending order by score, allowing ties. -/
abbrev SortedDescBy (l : List ScoredBook) : Prop :=
  l.Pairwise (fun a b => b.score ≤ a.score)

/-- Two lists agree on every score class: for every score value, the
subsequence of elements carrying that score is the same in both.  A stable
sort preserves every score class of its input. -/
def SameScoreClasses (l l' : List ScoredBook) : Prop :=
  ∀ c : ℚ, l.filter (fun s => decide (s.score = c))
    = l'.filter (fun s => decide (s.score = c))

theorem mem_insertDesc {y x : ScoredBook} {l : List ScoredBook} :
    y ∈ insertDesc x l ↔ y = x ∨ y ∈ l := by
  induction l with
  | nil => simp [insertDesc]
  | cons z zs ih =>
      rw [insertDesc]
      by_cases h : x.score < z.score
      · rw [if_pos h]
        simp only [List.mem_cons, ih]
        tauto
      · rw [if_neg h]
        simp only [List.mem_cons]

theorem mem_sortByScoreDesc {y : ScoredBook} {l : List ScoredBook} :
    y ∈ sortByScoreDesc l ↔ y ∈ l := by
  induction l with
  | nil => simp [sortByScoreDesc]
  | cons x xs ih => simp [sortByScoreDesc, mem_insertDesc, ih]

theorem sortedDesc_insertDesc {x : ScoredBook} {l : List ScoredBook}
    (h : SortedDescBy l) : SortedDescBy (insertDesc x l) := by
  induction l with
  | nil => simp [insertDesc]
  | cons z zs ih =>
      have h' := List.pairwise_cons.mp h
      by_cases hx : x.score < z.score
      · rw [insertDesc, if_pos hx]
        refine List.pairwise_cons.mpr ⟨?_, ih h'.2⟩
        intro b hb
        rcases mem_insertDesc.mp hb with rfl | hbz
        · exact le_of_lt hx
        · exact h'.1 b hbz
      · rw [insertDesc, if_neg hx]
        refine List.pairwise_cons.mpr ⟨?_, ?_⟩
        · intro b hb
          rcases List.mem_cons.mp hb with rfl | hbz
          · exact le_of_not_lt hx
          · exact le_trans (h'.1 b hbz) (le_of_not_lt hx)
        · exact List.pairwise_cons.mpr ⟨h'.1, h'.2⟩

theorem sortedDesc_sortByScoreDesc (l : List ScoredBook) :
    SortedDescBy (sortByScoreDesc l) := by
  induction l with
  | nil => simp [sortByScoreDesc]
  | cons x xs ih => exact sortedDesc_insertDesc ih

theorem filter_insertDesc (x : ScoredBook) (l : List ScoredBook) (c : ℚ) :
    (insertDesc x l).filter (fun s => decide (s.score = c))
      = (x :: l).filter (fun s => decide (s.score = c)) := by
  induction l with
  | nil => rfl
  | cons z zs ih =>
      by_cases hx : x.score < z.score
      · rw [insertDesc, if_pos hx]
        have hxc : ¬ x.score = c ∨ ¬ z.score = c := by
          by_cases hz : z.score = c
          · left; intro hc; rw [hc, hz] at hx; exact lt_irrefl _ hx
          · right; exact hz
        by_cases hz : z.score = c
        · have hxne : ¬ x.score = c := by
            rcases hxc with h | h
            · exact h
            · exact absurd hz h
          rw [List.filter_cons_of_pos (by simpa using hz), ih,
            List.filter_cons_of_neg (by simpa using hxne),
            List.filter_cons_of_neg (by simpa using hxne),
            List.filter_cons_of_pos (by simpa using hz)]
        · rw [List.filter_cons_of_neg (by simpa using hz), ih]
          by_cases hxe : x.score = c
          · rw [List.filter_cons_of_pos (by simpa using hxe),
              List.filter_cons_of_pos (by simpa using hxe),
              List.filter_cons_of_neg (by simpa using hz)]
          · rw [List.filter_cons_of_neg (by simpa using hxe),
              List.filter_cons_of_neg (by simpa using hxe),
              List.filter_cons_of_neg (by simpa using hz)]
      · rw [insertDesc, if_neg hx]

theorem filter_sortByScoreDesc (l : List ScoredBook) :
    SameScoreClasses (sortByScoreDesc l) l := by
  induction l with
  | nil => intro c; rfl
  | cons x xs ih =>
      intro c
      rw [sortByScoreDesc, filter_insertDesc]
      simp only [List.filter_cons]
      rw [ih c]

/-- Helper for the uniqueness of a stable descending sort: a sorted list all
of whose elements have score at most a, filtered at a score strictly above a,
is empty. -/
theorem filter_eq_nil_of_lt {l : List ScoredBook} {a c : ℚ}
    (hle : ∀ y ∈ l, y.score ≤ a) (hlt : a < c) :
    l.filter (fun s => decide (s.score = c)) = [] := by
  rw [List.filter_eq_nil_iff]
  intro y hy
  simp only [decide_eq_true_eq]
  intro hc
  exact absurd hlt (not_lt_of_le (hc ▸ hle y hy))

/-- Uniqueness: two lists that are both sorted descending by score and carry
the same score classes are equal.  This is the sense in which a stable
descending sort of a list is uniquely determined. -/
theorem sorted_sameScoreClasses_eq :
    ∀ {l₁ l₂ : List ScoredBook}, SortedDescBy l₁ → SortedDescBy l₂ →
      SameScoreClasses l₁ l₂ → l₁ = l₂ := by
  intro l₁
  induction l₁ with
  | nil =>
      intro l₂ _ _ hcl
      cases l₂ with
      | nil => rfl
      | cons b t₂ =>
          exfalso
          have h := hcl b.score
          simp [List.filter_cons] at h
  | cons a t₁ ih =>
      intro l₂ h₁ h₂ hcl
      cases l₂ with
      | nil =>
          exfalso
          have h := hcl a.score
          simp [List.filter_cons] at h
      | cons b t₂ =>
          have h₁ := List.pairwise_cons.mp h₁
          have h₂ := List.pairwise_cons.mp h₂
          have hscore : a.score = b.score := by
            rcases lt_trichotomy a.score b.score with hab | hab | hab
            · exfalso
              have h := hcl b.score
              rw [filter_eq_nil_of_lt (fun y hy => ?_) hab] at h
              · rw [List.filter_cons_of_pos (by simp)] at h
                exact List.cons_ne_nil _ _ h.symm
              · rcases List.mem_cons.mp hy with rfl | hyt
                · exact le_refl _
                · exact h₁.1 y hyt
            · exact hab
            · exfalso
              have h := (hcl a.score).symm
              rw [filter_eq_nil_of_lt (l := b :: t₂) (fun y hy => ?_) hab] at h
              · rw [List.filter_cons_of_pos (by simp)] at h
                exact List.cons_ne_nil _ _ h.symm
              · rcases List.mem_cons.mp hy with rfl | hyt
                · exact le_refl _
                · exact h₂.1 y hyt
          have hfa := hcl a.score
          rw [List.filter_cons_of_pos (by simp),
            List.filter_cons_of_pos (by simpa using hscore.symm)] at hfa
          have hab : a = b := by
            injection hfa with h1 h2
          subst hab
          have htails : SameScoreClasses t₁ t₂ := by
            intro c
            by_cases hc : a.score = c
            · injection hc ▸ hfa with h1 h2
            · have h := hcl c
              rw [List.filter_cons_of_neg (by simpa using hc),
                List.filter_cons_of_neg (by simpa using hc)] at h
              exact h
          rw [ih h₁.2 h₂.2 htails]

section CacheLemmas

variable {κ ν : Type} [DecidableEq κ]

theorem cacheFind_eq_some_mem {key : κ} {v : ν} :
    ∀ {es : List (κ × ν)}, cacheFind key es = some v → (key, v) ∈ es := by
  intro es
  induction es with
  | nil => intro h; exact absurd h (by simp [cacheFind])
  | cons e es ih =>
      intro h
      rw [cacheFind] at h
      by_cases he : e.1 = key
      · rw [if_pos he] at h
        injection h with h
        subst he h
        exact List.mem_cons_self _ _
      · rw [if_neg he] at h
        exact List.mem_cons_of_mem _ (ih h)

theorem cacheFind_eq_none_iff {key : κ} {es : List (κ × ν)} :
    cacheFind key es = none ↔ key ∉ es.map Prod.fst := by
  induction es with
  | nil => simp [cacheFind]
  | cons e es ih =>
      rw [cacheFind]
      by_cases he : e.1 = key
      · rw [if_pos he]
        simp [he]
      · rw [if_neg he]
        simp only [List.map_cons, List.mem_cons, ih]
        constructor
        · intro h hmem
          rcases hmem with h1 | h2
          · exact he h1.symm
          · exact h h2
        · intro h h2
          exact h (Or.inr h2)

theorem mem_of_cacheFind_ne_none {key : κ} {es : List (κ × ν)}
    (h : ¬ cacheFind key es = none) : key ∈ es.map Prod.fst := by
  by_contra hmem
  exact h (cacheFind_eq_none_iff.mpr hmem)

theorem cacheRemove_sublist (key : κ) :
    ∀ es : List (κ × ν), List.Sublist (cacheRemove key es) es := by
  intro es
  induction es with
  | nil => simp [cacheRemove]
  | cons e es ih =>
      rw [cacheRemove]
      by_cases he : e.1 = key
      · rw [if_pos he]
        exact List.sublist_cons_self _ _
      · rw [if_neg he]
        exact List.Sublist.cons₂ _ ih

theorem mem_map_fst_cacheRemove_of_ne {x key : κ} (hne : x ≠ key) :
    ∀ {es : List (κ × ν)},
      x ∈ (cacheRemove key es).map Prod.fst ↔ x ∈ es.map Prod.fst := by
  intro es
  induction es with
  | nil => simp [cacheRemove]
  | cons e es ih =>
      rw [cacheRemove]
      by_cases he : e.1 = key
      · rw [if_pos he]
        simp only [List.map_cons, List.mem_cons]
        constructor
        · exact Or.inr
        · intro h
          rcases h with h | h
          · exact absurd (he ▸ h) hne
          · exact h
      · rw [if_neg he]
        simp only [List.map_cons, List.mem_cons, ih]

theorem not_mem_map_fst_cacheRemove {key : κ} :
    ∀ {es : List (κ × ν)}, (es.map Prod.fst).Nodup →
      key ∉ (cacheRemove key es).map Prod.fst := by
  intro es
  induction es with
  | nil => intro _; simp [cacheRemove]
  | cons e es ih =>
      intro hnd
      rw [List.map_cons, List.nodup_cons] at hnd
      rw [cacheRemove]
      by_cases he : e.1 = key
      · rw [if_pos he]
        rw [he] at hnd
        exact hnd.1
      · rw [if_neg he]
        simp only [List.map_cons, List.mem_cons]
        intro h
        rcases h with h | h
        · exact he h.symm
        · exact ih hnd.2 h

theorem cacheFind_append_of_none {key : κ} {front back : List (κ × ν)}
    (h : cacheFind key front = none) :
    cacheFind key (front ++ back) = cacheFind key back := by
  induction front with
  | nil => simp
  | cons e es ih =>
      rw [cacheFind] at h
      by_cases he : e.1 = key
      · rw [if_pos he] at h
        exact absurd h (by simp)
      · rw [if_neg he] at h
        rw [List.cons_append, cacheFind, if_neg he]
        exact ih h

theorem cacheRemove_append_of_mem {key : κ} {front back : List (κ × ν)}
    (h : key ∈ front.map Prod.fst) :
    cacheRemove key (front ++ back) = cacheRemove key front ++ back := by
  induction front with
  | nil => simp at h
  | cons e es ih =>
      rw [List.cons_append, cacheRemove, cacheRemove]
      by_cases he : e.1 = key
      · rw [if_pos he, if_pos he]
      · rw [if_neg he, if_neg he, List.cons_append]
        rw [List.map_cons, List.mem_cons] at h
        rcases h with h | h
        · exact absurd h.symm he
        · rw [ih h]

theorem cacheRemove_append_of_not_mem {key : κ} {front back : List (κ × ν)}
    (h : key ∉ front.map Prod.fst) :
    cacheRemove key (front ++ back) = front ++ cacheRemove key back := by
  induction front with
  | nil => simp
  | cons e es ih =>
      rw [List.map_cons, List.mem_cons] at h
      push_neg at h
      rw [List.cons_append, cacheRemove, if_neg (fun he => h.1 he.symm),
        List.cons_append, ih h.2]

theorem cacheFind_append_of_some {key : κ} {v : ν} {front back : List (κ × ν)}
    (h : cacheFind key front = some v) :
    cacheFind key (front ++ back) = some v := by
  induction front with
  | nil => exact absurd h (by simp [cacheFind])
  | cons e es ih =>
      rw [cacheFind] at h
      rw [List.cons_append, cacheFind]
      by_cases he : e.1 = key
      · rw [if_pos he] at h ⊢
        exact h
      · rw [if_neg he] at h ⊢
        exact ih h

theorem cacheRemove_length_of_mem {key : κ} :
    ∀ {es : List (κ × ν)}, key ∈ es.map Prod.fst →
      (cacheRemove key es).length + 1 = es.length := by
  intro es
  induction es with
  | nil => intro h; simp at h
  | cons e es ih =>
      intro h
      rw [cacheRemove]
      by_cases he : e.1 = key
      · rw [if_pos he]
        simp
      · rw [if_neg he]
        rw [List.map_cons, List.mem_cons] at h
        rcases h with h | h
        · exact absurd h.symm he
        · simp only [List.length_cons, ← ih h]

/-- Invariant of a memoization cache for a fixed compute function: every
stored value is the computed value of its key, and no key is stored twice. -/
def CacheGood (f : κ → ν) (c : LruCache κ ν) : Prop :=
  (∀ e ∈ c.entries, e.2 = f e.1) ∧ (c.entries.map Prod.fst).Nodup

theorem getOrCompute_hit {c : LruCache κ ν} {key : κ} {v : ν} (f : κ → ν)
    (h : cacheFind key c.entries = some v) :
    c.getOrCompute key f
      = (v, { entries := (key, v) :: cacheRemove key c.entries,
              hits := c.hits + 1, misses := c.misses, maxsize := c.maxsize }) := by
  rw [LruCache.getOrCompute, h]

theorem getOrCompute_miss {c : LruCache κ ν} {key : κ} (f : κ → ν)
    (h : cacheFind key c.entries = none) :
    c.getOrCompute key f
      = (f key,
          { entries :=
              if ((key, f key) :: c.entries).length > c.maxsize
              then ((key, f key) :: c.entries).dropLast
              else (key, f key) :: c.entries,
            hits := c.hits, misses := c.misses + 1, maxsize := c.maxsize }) := by
  rw [LruCache.getOrCompute, h]

theorem getOrCompute_fst {f : κ → ν} {c : LruCache κ ν} (key : κ)
    (hwf : ∀ e ∈ c.entries, e.2 = f e.1) :
    (c.getOrCompute key f).1 = f key := by
  cases hfind : cacheFind key c.entries with
  | none => rw [getOrCompute_miss f hfind]
  | some v =>
      rw [getOrCompute_hit f hfind]
      simpa using hwf _ (cacheFind_eq_some_mem hfind)

theorem getOrCompute_maxsize (f : κ → ν) (c : LruCache κ ν) (key : κ) :
    (c.getOrCompute key f).2.maxsize = c.maxsize := by
  cases hfind : cacheFind key c.entries with
  | none => rw [getOrCompute_miss f hfind]
  | some v => rw [getOrCompute_hit f hfind]

theorem getOrCompute_good {f : κ → ν} {c : LruCache κ ν} (key : κ)
    (h : CacheGood f c) : CacheGood f (c.getOrCompute key f).2 := by
  obtain ⟨hwf, hnd⟩ := h
  cases hfind : cacheFind key c.entries with
  | some v =>
      rw [getOrCompute_hit f hfind]
      constructor
      · intro e he
        rcases List.mem_cons.mp he with rfl | he
        · simpa using hwf _ (cacheFind_eq_some_mem hfind)
        · exact hwf _ ((cacheRemove_sublist key _).subset he)
      · rw [List.map_cons]
        exact List.nodup_cons.mpr ⟨not_mem_map_fst_cacheRemove hnd,
          (hnd.sublist ((cacheRemove_sublist key _).map Prod.fst))⟩
  | none =>
      rw [getOrCompute_miss f hfind]
      have hkey : key ∉ c.entries.map Prod.fst := cacheFind_eq_none_iff.mp hfind
      have hcons : CacheGood f
          { entries := (key, f key) :: c.entries, hits := c.hits,
            misses := c.misses + 1, maxsize := c.maxsize } := by
        constructor
        · intro e he
          rcases List.mem_cons.mp he with rfl | he
          · rfl
          · exact hwf _ he
        · rw [List.map_cons]
          exact List.nodup_cons.mpr ⟨hkey, hnd⟩
      by_cases hlen : ((key, f key) :: c.entries).length > c.maxsize
      · rw [if_pos hlen]
        constructor
        · intro e he
          exact hcons.1 _ ((List.dropLast_sublist _).subset he)
        · exact hcons.2.sublist ((List.dropLast_sublist _).map Prod.fst)
      · rw [if_neg hlen]
        exact hcons

theorem getOrCompute_mem_hit {f : κ → ν} {c : LruCache κ ν} {key : κ}
    (h : key ∈ c.entries.map Prod.fst) :
    (c.getOrCompute key f).2.hits = c.hits + 1 ∧
    (c.getOrCompute key f).2.misses = c.misses ∧
    (∀ x, x ∈ (c.getOrCompute key f).2.entries.map Prod.fst
      ↔ x ∈ c.entries.map Prod.fst) := by
  cases hfind : cacheFind key c.entries with
  | none => exact absurd h (cacheFind_eq_none_iff.mp hfind)
  | some v =>
      rw [getOrCompute_hit f hfind]
      refine ⟨rfl, rfl, ?_⟩
      intro x
      simp only [List.map_cons, List.mem_cons]
      by_cases hx : x = key
      · subst hx
        simp [h]
      · simp only [hx, false_or]
        exact mem_map_fst_cacheRemove_of_ne hx

/-- Sequence of cache calls with a fixed compute function, modelling a run of
cached per-user computations. -/
def processKeys (f : κ → ν) (c : LruCache κ ν) (ks : List κ) : LruCache κ ν :=
  ks.foldl (fun c k => (c.getOrCompute k f).2) c

theorem processKeys_nil (f : κ → ν) (c : LruCache κ ν) :
    processKeys f c [] = c := rfl

theorem processKeys_cons (f : κ → ν) (c : LruCache κ ν) (k : κ) (ks : List κ) :
    processKeys f c (k :: ks) = processKeys f (c.getOrCompute k f).2 ks := rfl

theorem processKeys_good {f : κ → ν} :
    ∀ (ks : List κ) (c : LruCache κ ν), CacheGood f c →
      CacheGood f (processKeys f c ks) := by
  intro ks
  induction ks with
  | nil => intro c h; exact h
  | cons k ks ih =>
      intro c h
      rw [processKeys_cons]
      exact ih _ (getOrCompute_good k h)

theorem processKeys_maxsize (f : κ → ν) :
    ∀ (ks : List κ) (c : LruCache κ ν),
      (processKeys f c ks).maxsize = c.maxsize := by
  intro ks
  induction ks with
  | nil => intro c; rfl
  | cons k ks ih =>
      intro c
      rw [processKeys_cons, ih, getOrCompute_maxsize]

theorem processKeys_all_hits (f : κ → ν) :
    ∀ (ks : List κ) (c : LruCache κ ν),
      (∀ k ∈ ks, k ∈ c.entries.map Prod.fst) →
      (processKeys f c ks).hits = c.hits + ks.length ∧
      (processKeys f c ks).misses = c.misses ∧
      (∀ x, x ∈ (processKeys f c ks).entries.map Prod.fst
        ↔ x ∈ c.entries.map Prod.fst) := by
  intro ks
  induction ks with
  | nil =>
      intro c _
      exact ⟨rfl, rfl, fun x => Iff.rfl⟩
  | cons k ks ih =>
      intro c h
      have hk := h k (List.mem_cons_self _ _)
      have step := getOrCompute_mem_hit (f := f) hk
      have hrest : ∀ k' ∈ ks, k' ∈ (c.getOrCompute k f).2.entries.map Prod.fst :=
        fun k' hk' => (step.2.2 k').mpr (h k' (List.mem_cons_of_mem _ hk'))
      have ihh := ih (c.getOrCompute k f).2 hrest
      rw [processKeys_cons]
      refine ⟨?_, ?_, ?_⟩
      · rw [ihh.1, step.1, List.length_cons]
        omega
      · rw [ihh.2.1, step.2.1]
      · intro x
        exact (ihh.2.2 x).trans (step.2.2 x)

theorem card_insert_eq_card_erase_add_one {α : Type} [DecidableEq α]
    (X : Finset α) (k : α) : (insert k X).card = (X.erase k).card + 1 := by
  have h1 : insert k X = insert k (X.erase k) := by
    ext x
    simp only [Finset.mem_insert, Finset.mem_erase]
    constructor
    · intro h
      rcases h with rfl | h
      · exact Or.inl rfl
      · by_cases hx : x = k
        · exact Or.inl hx
        · exact Or.inr ⟨hx, h⟩
    · intro h
      rcases h with rfl | h
      · exact Or.inl rfl
      · exact Or.inr h.2
  rw [h1, Finset.card_insert_of_not_mem (Finset.not_mem_erase k X)]

/-- Presence invariant of an LRU cache run: starting from any well formed
state, after a run whose distinct keys fit into the capacity alongside the
keys already touched by the run, every key of the run is stored.  The
argument splits the entries into a front region of already touched keys,
which eviction never reaches, and a back region of untouched older entries,
which are the only ones evicted. -/
theorem processKeys_presence {f : κ → ν} :
    ∀ (ks : List κ) (c : LruCache κ ν) (front back : List (κ × ν)),
      c.entries = front ++ back →
      ((front ++ back).map Prod.fst).Nodup →
      front.length
          + (ks.toFinset \ (front.map Prod.fst).toFinset).card ≤ c.maxsize →
      ∃ front' back',
        (processKeys f c ks).entries = front' ++ back' ∧
        (∀ x, x ∈ front'.map Prod.fst ↔ x ∈ front.map Prod.fst ∨ x ∈ ks) := by
  intro ks
  induction ks with
  | nil =>
      intro c front back hent _ _
      exact ⟨front, back, hent, fun x => by simp⟩
  | cons k rest ih =>
      intro c front back hent hnd hcard
      rw [processKeys_cons]
      by_cases hfk : k ∈ front.map Prod.fst
      · -- the key was already touched: a hit inside the front region
        obtain ⟨v, hv⟩ : ∃ v, cacheFind k front = some v := by
          cases hfe : cacheFind k front with
          | none => exact absurd hfk (cacheFind_eq_none_iff.mp hfe)
          | some v => exact ⟨v, rfl⟩
        have hcf : cacheFind k c.entries = some v := by
          rw [hent]
          exact cacheFind_append_of_some hv
        have hstep := getOrCompute_hit f hcf
        have hent1 : (c.getOrCompute k f).2.entries
            = ((k, v) :: cacheRemove k front) ++ back := by
          simp only [hstep, hent, cacheRemove_append_of_mem hfk, List.cons_append]
        have hnd1 : ((((k, v) :: cacheRemove k front) ++ back).map Prod.fst).Nodup := by
          rw [List.cons_append,
            ← cacheRemove_append_of_mem hfk, List.map_cons]
          exact List.nodup_cons.mpr ⟨not_mem_map_fst_cacheRemove hnd,
            hnd.sublist ((cacheRemove_sublist _ _).map Prod.fst)⟩
        have hfkeys : ∀ x, x ∈ ((k, v) :: cacheRemove k front).map Prod.fst
            ↔ x ∈ front.map Prod.fst := by
          intro x
          rw [List.map_cons, List.mem_cons]
          by_cases hx : x = k
          · subst hx
            simp [hfk]
          · simp only [hx, false_or]
            exact mem_map_fst_cacheRemove_of_ne hx
        have hcard1 : ((k, v) :: cacheRemove k front).length
            + (rest.toFinset
                \ (((k, v) :: cacheRemove k front).map Prod.fst).toFinset).card
            ≤ (c.getOrCompute k f).2.maxsize := by
          rw [getOrCompute_maxsize]
          have hlen1 : ((k, v) :: cacheRemove k front).length = front.length := by
            rw [List.length_cons, cacheRemove_length_of_mem hfk]
          have hS1 : (((k, v) :: cacheRemove k front).map Prod.fst).toFinset
              = (front.map Prod.fst).toFinset := by
            ext x
            simp only [List.mem_toFinset]
            exact hfkeys x
          rw [hlen1, hS1]
          refine le_trans (Nat.add_le_add_left (Finset.card_le_card ?_) _) hcard
          refine Finset.sdiff_subset_sdiff ?_ (le_refl _)
          rw [List.toFinset_cons]
          exact Finset.subset_insert _ _
        obtain ⟨front', back', hent', hmem'⟩ :=
          ih (c.getOrCompute k f).2 ((k, v) :: cacheRemove k front) back
            hent1 hnd1 hcard1
        refine ⟨front', back', hent', ?_⟩
        intro x
        rw [hmem' x, hfkeys x, List.mem_cons]
        constructor
        · rintro (h | h)
          · exact Or.inl h
          · exact Or.inr (Or.inr h)
        · rintro (h | rfl | h)
          · exact Or.inl h
          · exact Or.inl hfk
          · exact Or.inr h
      · -- the key is new to the front region
        have hvf : cacheFind k front = none := cacheFind_eq_none_iff.mpr hfk
        have hcf : cacheFind k c.entries = cacheFind k back := by
          rw [hent]
          exact cacheFind_append_of_none hvf
        have hkS : k ∉ (front.map Prod.fst).toFinset := by
          rw [List.mem_toFinset]
          exact hfk
        have hcount : ((k :: rest).toFinset \ (front.map Prod.fst).toFinset).card
            = (rest.toFinset \ insert k (front.map Prod.fst).toFinset).card + 1 := by
          rw [List.toFinset_cons, Finset.insert_sdiff_of_not_mem _ hkS,
            card_insert_eq_card_erase_add_one, Finset.sdiff_insert]
        cases hfb : cacheFind k back with
        | some v =>
            -- a hit inside the untouched back region: the entry moves to front
            have hcfv : cacheFind k c.entries = some v := hcf.trans hfb
            have hstep := getOrCompute_hit f hcfv
            have hent1 : (c.getOrCompute k f).2.entries
                = ((k, v) :: front) ++ cacheRemove k back := by
              simp only [hstep, hent, cacheRemove_append_of_not_mem hfk,
                List.cons_append]
            have hnd1 : ((((k, v) :: front) ++ cacheRemove k back).map
                Prod.fst).Nodup := by
              rw [List.cons_append, ← cacheRemove_append_of_not_mem hfk,
                List.map_cons]
              exact List.nodup_cons.mpr ⟨not_mem_map_fst_cacheRemove hnd,
                hnd.sublist ((cacheRemove_sublist _ _).map Prod.fst)⟩
            have hcard1 : ((k, v) :: front).length
                + (rest.toFinset
                    \ (((k, v) :: front).map Prod.fst).toFinset).card
                ≤ (c.getOrCompute k f).2.maxsize := by
              simp only [getOrCompute_maxsize, List.length_cons, List.map_cons,
                List.toFinset_cons]
              rw [hcount] at hcard
              omega
            obtain ⟨front', back', hent', hmem'⟩ :=
              ih (c.getOrCompute k f).2 ((k, v) :: front) (cacheRemove k back)
                hent1 hnd1 hcard1
            refine ⟨front', back', hent', ?_⟩
            intro x
            rw [hmem' x, List.map_cons, List.mem_cons, List.mem_cons]
            tauto
        | none =>
            -- a miss: the key is inserted in front, eviction hits the back
            have hcfn : cacheFind k c.entries = none := hcf.trans hfb
            have hstep := getOrCompute_miss f hcfn
            have hknotc : k ∉ c.entries.map Prod.fst :=
              cacheFind_eq_none_iff.mp hcfn
            have hbound : front.length + 1 ≤ c.maxsize := by
              have hpos : 0 < ((k :: rest).toFinset
                  \ (front.map Prod.fst).toFinset).card := by
                refine Finset.card_pos.mpr ⟨k, ?_⟩
                rw [Finset.mem_sdiff, List.toFinset_cons]
                exact ⟨Finset.mem_insert_self _ _, hkS⟩
              omega
            have hent1 : ∃ back₁,
                (c.getOrCompute k f).2.entries = ((k, f k) :: front) ++ back₁ ∧
                List.Sublist back₁ back := by
              by_cases hlen : ((k, f k) :: c.entries).length > c.maxsize
              · have hback : back ≠ [] := by
                  intro hb
                  rw [hent, hb, List.append_nil] at hlen
                  rw [List.length_cons] at hlen
                  omega
                refine ⟨back.dropLast, ?_, List.dropLast_sublist back⟩
                simp only [hstep, hent]
                rw [if_pos (show ((k, f k) :: (front ++ back)).length > c.maxsize
                  from hent ▸ hlen)]
                rw [← List.cons_append,
                  List.dropLast_append_of_ne_nil _ hback]
              · refine ⟨back, ?_, List.Sublist.refl back⟩
                simp only [hstep, hent]
                rw [if_neg (show ¬ ((k, f k) :: (front ++ back)).length > c.maxsize
                  from hent ▸ hlen), List.cons_append]
            obtain ⟨back₁, hent1, hsub1⟩ := hent1
            have hnd1 : ((((k, f k) :: front) ++ back₁).map Prod.fst).Nodup := by
              rw [List.cons_append, List.map_cons]
              refine List.nodup_cons.mpr ⟨?_, ?_⟩
              · intro hmem
                refine hknotc ?_
                rw [hent]
                revert hmem
                have hsub : List.Sublist ((front ++ back₁).map Prod.fst)
                    ((front ++ back).map Prod.fst) :=
                  (hsub1.append_left front).map Prod.fst
                exact fun hmem => hsub.subset hmem
              · refine List.Nodup.sublist ?_ hnd
                exact (hsub1.append_left front).map Prod.fst
            have hcard1 : ((k, f k) :: front).length
                + (rest.toFinset
                    \ (((k, f k) :: front).map Prod.fst).toFinset).card
                ≤ (c.getOrCompute k f).2.maxsize := by
              simp only [getOrCompute_maxsize, List.length_cons, List.map_cons,
                List.toFinset_cons]
              rw [hcount] at hcard
              omega
            obtain ⟨front', back', hent', hmem'⟩ :=
              ih (c.getOrCompute k f).2 ((k, f k) :: front) back₁
                hent1 hnd1 hcard1
            refine ⟨front', back', hent', ?_⟩
            intro x
            rw [hmem' x, List.map_cons, List.mem_cons, List.mem_cons]
            tauto

theorem getOrCompute_values {f : κ → ν} {c : LruCache κ ν} (key : κ)
    (hwf : ∀ e ∈ c.entries, e.2 = f e.1) :
    ∀ e ∈ (c.getOrCompute key f).2.entries, e.2 = f e.1 := by
  cases hfind : cacheFind key c.entries with
  | some v =>
      rw [getOrCompute_hit f hfind]
      intro e he
      rcases List.mem_cons.mp he with rfl | he
      · simpa using hwf _ (cacheFind_eq_some_mem hfind)
      · exact hwf _ ((cacheRemove_sublist key _).subset he)
  | none =>
      rw [getOrCompute_miss f hfind]
      intro e he
      simp only at he
      by_cases hlen : ((key, f key) :: c.entries).length > c.maxsize
      · rw [if_pos hlen] at he
        have he' := (List.dropLast_sublist _).subset he
        rcases List.mem_cons.mp he' with rfl | he'
        · rfl
        · exact hwf _ he'
      · rw [if_neg hlen] at he
        rcases List.mem_cons.mp he with rfl | he
        · rfl
        · exact hwf _ he

theorem processKeys_presence_all {f : κ → ν} (ks : List κ) (c : LruCache κ ν)
    (hnd : (c.entries.map Prod.fst).Nodup)
    (hcard : ks.toFinset.card ≤ c.maxsize) :
    ∀ k ∈ ks, k ∈ (processKeys f c ks).entries.map Prod.fst := by
  obtain ⟨front', back', hent', hmem'⟩ :=
    processKeys_presence (f := f) ks c [] c.entries (by simp) (by simpa using hnd)
      (by simpa using hcard)
  intro k hk
  rw [hent', List.map_append]
  exact List.mem_append_left _ ((hmem' k).mpr (by simpa using hk))

end CacheLemmas

theorem recommend_single_user_fst
    {c : LruCache RecoKey (List ScoredBook)} {uid : String} {r : List Rating}
    {b : List Book} {k : Nat}
    (hwf : ∀ e ∈ c.entries, e.2 = recoCompute e.1) :
    (recommend_single_user c uid r b k).1
      = ((recoCompute (uid, r, b)).take k).map formatRecommendation := by
  unfold recommend_single_user recommend_for_user_cached
  dsimp only
  rw [getOrCompute_fst _ hwf]

theorem recommend_single_user_snd
    (c : LruCache RecoKey (List ScoredBook)) (uid : String) (r : List Rating)
    (b : List Book) (k : Nat) :
    (recommend_single_user c uid r b k).2
      = (c.getOrCompute (uid, r, b) recoCompute).2 := rfl

theorem batchAccum_fst (r : List Rating) (b : List Book) (k : Nat) :
    ∀ (uids : List String) (c : LruCache RecoKey (List ScoredBook)),
      (∀ e ∈ c.entries, e.2 = recoCompute e.1) →
      (batchAccum c uids r b k).1
        = uids.map (fun u =>
            (u, ((recoCompute (u, r, b)).take k).map formatRecommendation)) := by
  intro uids
  induction uids with
  | nil => intro c _; rfl
  | cons u rest ih =>
      intro c hwf
      rw [batchAccum, List.map_cons]
      have h2 := ih (recommend_single_user c u r b k).2
        ((recommend_single_user_snd c u r b k) ▸ getOrCompute_values _ hwf)
      rw [recommend_single_user_fst hwf, h2]

theorem batchAccum_snd (r : List Rating) (b : List Book) (k : Nat) :
    ∀ (uids : List String) (c : LruCache RecoKey (List ScoredBook)),
      (batchAccum c uids r b k).2
        = processKeys recoCompute c (uids.map (fun u => (u, r, b))) := by
  intro uids
  induction uids with
  | nil => intro c; rfl
  | cons u rest ih =>
      intro c
      rw [batchAccum, List.map_cons, processKeys_cons, ← ih]
      rfl

theorem recommend_batch_flag (s : EngineState) (uids : List String)
    (r : List Rating) (b : List Book) (k : Nat) :
    (recommend_batch s uids r b k).2.shutdown_flag = s.shutdown_flag := by
  unfold recommend_batch
  by_cases hs : s.shutdown_flag
  · rw [if_pos hs]
  · rw [if_neg hs]
    by_cases he : uids.isEmpty
    · rw [if_pos he]
    · rw [if_neg he]

theorem recommend_batch_ok (s : EngineState) (uids : List String)
    (r : List Rating) (b : List Book) (k : Nat)
    (hrun : s.shutdown_flag = false)
    (hwf : ∀ e ∈ s.cache.entries, e.2 = recoCompute e.1) :
    (recommend_batch s uids r b k).1
      = .ok (uids.map (fun u =>
          (u, ((recoCompute (u, r, b)).take k).map formatRecommendation))) ∧
    (recommend_batch s uids r b k).2.cache
      = processKeys recoCompute s.cache (uids.map (fun u => (u, r, b))) := by
  unfold recommend_batch
  rw [hrun]
  simp only [Bool.false_eq_true, if_false]
  by_cases he : uids.isEmpty
  · rw [if_pos he]
    rw [List.isEmpty_iff] at he
    subst he
    exact ⟨rfl, rfl⟩
  · rw [if_neg he]
    exact ⟨by rw [batchAccum_fst r b k uids s.cache hwf],
      by rw [← batchAccum_snd r b k uids s.cache]⟩

theorem processKeys_values {κ ν : Type} [DecidableEq κ] {f : κ → ν} :
    ∀ (ks : List κ) (c : LruCache κ ν),
      (∀ e ∈ c.entries, e.2 = f e.1) →
      ∀ e ∈ (processKeys f c ks).entries, e.2 = f e.1 := by
  intro ks
  induction ks with
  | nil => intro c h; exact h
  | cons k ks ih =>
      intro c h
      rw [processKeys_cons]
      exact ih _ (getOrCompute_values k h)

theorem recommend_batch_cache_values (s : EngineState) (uids : List String)
    (r : List Rating) (b : List Book) (k : Nat)
    (hwf : ∀ e ∈ s.cache.entries, e.2 = recoCompute e.1) :
    ∀ e ∈ (recommend_batch s uids r b k).2.cache.entries, e.2 = recoCompute e.1 := by
  unfold recommend_batch
  by_cases hs : s.shutdown_flag
  · rw [if_pos hs]
    exact hwf
  · rw [if_neg hs]
    by_cases he : uids.isEmpty
    · rw [if_pos he]
      exact hwf
    · rw [if_neg he]
      simp only
      rw [batchAccum_snd]
      exact processKeys_values _ _ hwf

theorem recommend_batch_cache_good (s : EngineState) (uids : List String)
    (r : List Rating) (b : List Book) (k : Nat)
    (hgood : CacheGood recoCompute s.cache) :
    CacheGood recoCompute (recommend_batch s uids r b k).2.cache := by
  unfold recommend_batch
  by_cases hs : s.shutdown_flag
  · rw [if_pos hs]
    exact hgood
  · rw [if_neg hs]
    by_cases he : uids.isEmpty
    · rw [if_pos he]
      exact hgood
    · rw [if_neg he]
      simp only
      rw [batchAccum_snd]
      exact processKeys_good _ _ hgood

theorem similarity_nonneg (book : Book) (p : UserProfile) :
    0 ≤ calculate_book_similarity book p := by
  unfold calculate_book_similarity
  split_ifs <;> norm_num

theorem similarity_le_one (book : Book) (p : UserProfile) :
    calculate_book_similarity book p ≤ 1 := by
  unfold calculate_book_similarity
  split_ifs <;> norm_num

theorem sum_values_bounds {l : List Rating}
    (h : ∀ rt ∈ l, (1 : ℤ) ≤ rt.value ∧ rt.value ≤ 5) :
    0 ≤ (l.map (fun rt => (rt.value : ℚ))).sum ∧
      (l.map (fun rt => (rt.value : ℚ))).sum ≤ 5 * l.length := by
  induction l with
  | nil => simp
  | cons rt l ih =>
      have hh := h rt (List.mem_cons_self _ _)
      have ihh := ih (fun x hx => h x (List.mem_cons_of_mem _ hx))
      simp only [List.map_cons, List.sum_cons, List.length_cons]
      have h1 : (1 : ℚ) ≤ (rt.value : ℚ) := by exact_mod_cast hh.1
      have h2 : (rt.value : ℚ) ≤ 5 := by exact_mod_cast hh.2
      push_cast
      constructor
      · linarith [ihh.1]
      · linarith [ihh.2]

theorem avg_rating_bounds {ratings : List Rating} (book_id : String)
    (h : ∀ rt ∈ ratings, (1 : ℤ) ≤ rt.value ∧ rt.value ≤ 5) :
    0 ≤ avg_rating_for_book ratings book_id ∧
      avg_rating_for_book ratings book_id ≤ 5 := by
  unfold avg_rating_for_book
  by_cases hl : (ratings.filter (fun r => r.book_id == book_id)).isEmpty
  · rw [if_pos hl]
    norm_num
  · rw [if_neg hl]
    have hmem : ∀ rt ∈ ratings.filter (fun r => r.book_id == book_id),
        (1 : ℤ) ≤ rt.value ∧ rt.value ≤ 5 :=
      fun rt hrt => h rt (List.mem_of_mem_filter hrt)
    have hb := sum_values_bounds hmem
    have hne : ratings.filter (fun r => r.book_id == book_id) ≠ [] := by
      intro hnil
      rw [hnil] at hl
      exact hl rfl
    have hlen : (0 : ℚ) < (ratings.filter (fun r => r.book_id == book_id)).length := by
      have := List.length_pos.mpr hne
      exact_mod_cast this
    constructor
    · exact div_nonneg hb.1 (le_of_lt hlen)
    · rw [div_le_iff₀ hlen]
      linarith [hb.2]

theorem candidate_score_bounds {uid : String} {r : List Rating} {b : List Book}
    (hr : ∀ rt ∈ r, (1 : ℤ) ≤ rt.value ∧ rt.value ≤ 5) :
    ∀ s ∈ candidate_scores uid r b, 0 ≤ s.score ∧ s.score ≤ 1 := by
  intro s hs
  unfold candidate_scores at hs
  simp only [List.mem_map] at hs
  obtain ⟨bk, hbk, rfl⟩ := hs
  dsimp only
  have h1 := similarity_nonneg bk (calculate_user_profile uid r b)
  have h2 := similarity_le_one bk (calculate_user_profile uid r b)
  have h3 := avg_rating_bounds bk.id hr
  constructor
  · have := h3.1
    positivity
  · nlinarith [h3.1, h3.2]

theorem recommend_compute_score_bounds {uid : String} {r : List Rating}
    {b : List Book} (hr : ∀ rt ∈ r, (1 : ℤ) ≤ rt.value ∧ rt.value ≤ 5) :
    ∀ s ∈ recommend_compute uid r b, 0 ≤ s.score ∧ s.score ≤ 1 := by
  intro s hs
  unfold recommend_compute at hs
  exact candidate_score_bounds hr s
    (mem_sortByScoreDesc.mp (List.mem_of_mem_take hs))

theorem recommend_compute_not_rated {uid : String} {r : List Rating}
    {b : List Book} :
    ∀ s ∈ recommend_compute uid r b, ∀ rt ∈ r, rt.user_id = uid →
      s.book_id ≠ rt.book_id := by
  intro s hs rt hrt huid
  unfold recommend_compute at hs
  have hs' : s ∈ candidate_scores uid r b :=
    mem_sortByScoreDesc.mp (List.mem_of_mem_take hs)
  unfold candidate_scores at hs'
  simp only [List.mem_map] at hs'
  obtain ⟨bk, hbk, rfl⟩ := hs'
  rw [List.mem_filter] at hbk
  dsimp only
  intro heq
  have hmem : rt.book_id ∈ (calculate_user_profile uid r b).rated_books := by
    unfold calculate_user_profile
    dsimp only
    simp only [List.mem_map]
    exact ⟨rt, List.mem_filter.mpr ⟨hrt, by simp [huid]⟩, rfl⟩
  have hcontains := hbk.2
  rw [heq] at hcontains
  simp only [Bool.not_eq_true'] at hcontains
  rw [List.contains_eq_any_beq] at hcontains
  have : rt.book_id ∈ (calculate_user_profile uid r b).rated_books → False := by
    intro hm
    have : ((calculate_user_profile uid r b).rated_books.any
        (fun x => rt.book_id == x)) = true := by
      rw [List.any_eq_true]
      exact ⟨rt.book_id, hm, by simp⟩
    rw [this] at hcontains
    exact absurd hcontains (by simp)
  exact this hmem

theorem cacheFind_bumpCount_self :
    ∀ (m : List (String × Nat)) (u : String),
      cacheFind u (bumpCount m u) = some ((cacheFind u m).getD 0 + 1) := by
  intro m
  induction m with
  | nil => intro u; simp [bumpCount, cacheFind]
  | cons e rest ih =>
      intro u
      rw [bumpCount]
      by_cases he : e.1 = u
      · rw [if_pos he, cacheFind, if_pos he, cacheFind, if_pos he]
        rfl
      · rw [if_neg he, cacheFind, if_neg he, cacheFind, if_neg he, ih]

theorem cacheFind_bumpCount_ne {u u' : String} (h : u' ≠ u) :
    ∀ m : List (String × Nat), cacheFind u' (bumpCount m u) = cacheFind u' m := by
  intro m
  induction m with
  | nil =>
      simp [bumpCount, cacheFind, Ne.symm h]
  | cons e rest ih =>
      rw [bumpCount]
      by_cases he : e.1 = u
      · rw [if_pos he, cacheFind, cacheFind]
        have hne : ¬ (e.1 = u') := fun hh => h (hh.symm.trans he)
        rw [if_neg hne, if_neg hne]
      · rw [if_neg he, cacheFind, cacheFind]
        by_cases he' : e.1 = u'
        · rw [if_pos he', if_pos he']
        · rw [if_neg he', if_neg he', ih]

theorem bumpCount_keys_of_mem {u : String} :
    ∀ {m : List (String × Nat)}, u ∈ m.map Prod.fst →
      (bumpCount m u).map Prod.fst = m.map Prod.fst := by
  intro m
  induction m with
  | nil => intro h; simp at h
  | cons e rest ih =>
      intro h
      rw [bumpCount]
      by_cases he : e.1 = u
      · rw [if_pos he]
        simp
      · rw [if_neg he]
        rw [List.map_cons, List.mem_cons] at h
        rcases h with h | h
        · exact absurd h.symm he
        · rw [List.map_cons, List.map_cons, ih h]

theorem bumpCount_keys_of_not_mem {u : String} :
    ∀ {m : List (String × Nat)}, u ∉ m.map Prod.fst →
      (bumpCount m u).map Prod.fst = m.map Prod.fst ++ [u] := by
  intro m
  induction m with
  | nil => intro _; simp [bumpCount]
  | cons e rest ih =>
      intro h
      rw [List.map_cons, List.mem_cons] at h
      push_neg at h
      rw [bumpCount, if_neg (fun he => h.1 he.symm), List.map_cons,
        List.map_cons, ih h.2, List.cons_append]

theorem bumpCount_keys_mem_iff {u x : String} (m : List (String × Nat)) :
    x ∈ (bumpCount m u).map Prod.fst ↔ x ∈ m.map Prod.fst ∨ x = u := by
  by_cases hm : u ∈ m.map Prod.fst
  · rw [bumpCount_keys_of_mem hm]
    constructor
    · exact Or.inl
    · rintro (h | rfl)
      · exact h
      · exact hm
  · rw [bumpCount_keys_of_not_mem hm, List.mem_append, List.mem_singleton]

theorem bumpCount_keys_nodup {u : String} {m : List (String × Nat)}
    (h : (m.map Prod.fst).Nodup) : ((bumpCount m u).map Prod.fst).Nodup := by
  by_cases hm : u ∈ m.map Prod.fst
  · rw [bumpCount_keys_of_mem hm]
    exact h
  · rw [bumpCount_keys_of_not_mem hm]
    rw [List.nodup_append]
    exact ⟨h, List.nodup_singleton u, by
      intro x hx
      simp only [List.mem_singleton]
      intro hxu
      exact hm (hxu ▸ hx)⟩

/-- One step of the counting loop of _calculate_user_statistics. -/
def urcStep (user_ids : List String) (m : List (String × Nat)) (r : Rating) :
    List (String × Nat) :=
  if r.user_id ∈ user_ids then bumpCount m r.user_id else m

theorem user_ratings_count_eq_fold (user_ids : List String)
    (ratings : List Rating) :
    user_ratings_count user_ids ratings = ratings.foldl (urcStep user_ids) [] := rfl

theorem urc_fold_find (user_ids : List String) :
    ∀ (rs : List Rating) (m : List (String × Nat)) (u : String),
      (cacheFind u (rs.foldl (urcStep user_ids) m)).getD 0
        = (cacheFind u m).getD 0
          + (if u ∈ user_ids
              then (rs.filter (fun rt => rt.user_id == u)).length else 0) := by
  intro rs
  induction rs with
  | nil =>
      intro m u
      simp
  | cons rt rs ih =>
      intro m u
      rw [List.foldl_cons, ih]
      by_cases hu : u ∈ user_ids
      · rw [if_pos hu, if_pos hu]
        by_cases hru : rt.user_id = u
        · have hmem : rt.user_id ∈ user_ids := hru ▸ hu
          rw [urcStep, if_pos hmem, hru, cacheFind_bumpCount_self,
            List.filter_cons_of_pos (by simpa using hru)]
          simp only [Option.getD_some, List.length_cons]
          omega
        · have hfil : (rt :: rs).filter (fun rt => rt.user_id == u)
              = rs.filter (fun rt => rt.user_id == u) :=
            List.filter_cons_of_neg (by simpa using hru)
          rw [hfil, urcStep]
          by_cases hrm : rt.user_id ∈ user_ids
          · rw [if_pos hrm, cacheFind_bumpCount_ne (fun h => hru h.symm)]
          · rw [if_neg hrm]
      · rw [if_neg hu, if_neg hu, urcStep]
        by_cases hrm : rt.user_id ∈ user_ids
        · have hru : ¬ rt.user_id = u := fun h => hu (h ▸ hrm)
          rw [if_pos hrm, cacheFind_bumpCount_ne (fun h => hru h.symm)]
        · rw [if_neg hrm]

theorem urc_fold_keys_mem (user_ids : List String) :
    ∀ (rs : List Rating) (m : List (String × Nat)) (x : String),
      x ∈ (rs.foldl (urcStep user_ids) m).map Prod.fst
        ↔ x ∈ m.map Prod.fst
          ∨ (x ∈ user_ids ∧ ∃ rt ∈ rs, rt.user_id = x) := by
  intro rs
  induction rs with
  | nil =>
      intro m x
      simp
  | cons rt rs ih =>
      intro m x
      rw [List.foldl_cons, ih, urcStep]
      by_cases hrm : rt.user_id ∈ user_ids
      · rw [if_pos hrm, bumpCount_keys_mem_iff]
        constructor
        · rintro ((h | rfl) | h)
          · exact Or.inl h
          · exact Or.inr ⟨hrm, rt, List.mem_cons_self _ _, rfl⟩
          · exact Or.inr ⟨h.1, h.2.choose,
              List.mem_cons_of_mem _ h.2.choose_spec.1, h.2.choose_spec.2⟩
        · rintro (h | ⟨hx, rt', hrt', hid⟩)
          · exact Or.inl (Or.inl h)
          · rcases List.mem_cons.mp hrt' with rfl | hrt'
            · exact Or.inl (Or.inr hid.symm)
            · exact Or.inr ⟨hx, rt', hrt', hid⟩
      · rw [if_neg hrm]
        constructor
        · rintro (h | h)
          · exact Or.inl h
          · exact Or.inr ⟨h.1, h.2.choose,
              List.mem_cons_of_mem _ h.2.choose_spec.1, h.2.choose_spec.2⟩
        · rintro (h | ⟨hx, rt', hrt', hid⟩)
          · exact Or.inl h
          · rcases List.mem_cons.mp hrt' with rfl | hrt'
            · exact absurd (hid ▸ hx) hrm
            · exact Or.inr ⟨hx, rt', hrt', hid⟩

theorem urc_fold_nodup (user_ids : List String) :
    ∀ (rs : List Rating) (m : List (String × Nat)),
      (m.map Prod.fst).Nodup →
      ((rs.foldl (urcStep user_ids) m).map Prod.fst).Nodup := by
  intro rs
  induction rs with
  | nil => intro m h; exact h
  | cons rt rs ih =>
      intro m h
      rw [List.foldl_cons]
      refine ih _ ?_
      rw [urcStep]
      by_cases hrm : rt.user_id ∈ user_ids
      · rw [if_pos hrm]
        exact bumpCount_keys_nodup h
      · rw [if_neg hrm]
        exact h

theorem cacheFind_of_mem_nodup {κ ν : Type} [DecidableEq κ] {k : κ} {v : ν} :
    ∀ {es : List (κ × ν)}, ((es.map Prod.fst).Nodup) → (k, v) ∈ es →
      cacheFind k es = some v := by
  intro es
  induction es with
  | nil => intro _ h; simp at h
  | cons e rest ih =>
      intro hnd h
      rw [List.map_cons, List.nodup_cons] at hnd
      rcases List.mem_cons.mp h with rfl | h
      · rw [cacheFind, if_pos rfl]
      · rw [cacheFind]
        by_cases he : e.1 = k
        · exfalso
          refine hnd.1 ?_
          rw [he]
          exact List.mem_map.mpr ⟨(k, v), h, rfl⟩
        · rw [if_neg he]
          exact ih hnd.2 h

theorem classifyActivity_fold (counts : List Nat) :
    ∀ a : ActivityLevels,
      counts.foldl
        (fun a c =>
          if c ≥ 10 then { a with high := a.high + 1 }
          else if c ≥ 5 then { a with medium := a.medium + 1 }
          else { a with low := a.low + 1 }) a
      = { high := a.high + counts.countP (fun c => decide (10 ≤ c)),
          medium := a.medium + counts.countP (fun c => decide (5 ≤ c ∧ c < 10)),
          low := a.low + counts.countP (fun c => decide (c < 5)) } := by
  induction counts with
  | nil => intro a; simp
  | cons c cs ih =>
      intro a
      rw [List.foldl_cons, ih, List.countP_cons, List.countP_cons, List.countP_cons]
      by_cases h10 : 10 ≤ c
      · rw [if_pos h10]
        have e1 : (decide (10 ≤ c)) = true := by simpa using h10
        have e2 : (decide (5 ≤ c ∧ c < 10)) = false := by
          simp only [decide_eq_false_iff_not]
          omega
        have e3 : (decide (c < 5)) = false := by
          simp only [decide_eq_false_iff_not]
          omega
        rw [e1, e2, e3]
        simp only [eq_self_iff_true, Bool.false_eq_true, if_true, if_false]
        congr 1 <;> omega
      · rw [if_neg h10]
        by_cases h5 : 5 ≤ c
        · rw [if_pos h5]
          have e1 : (decide (10 ≤ c)) = false := by simpa using h10
          have e2 : (decide (5 ≤ c ∧ c < 10)) = true := by
            simp only [decide_eq_true_eq]
            omega
          have e3 : (decide (c < 5)) = false := by
            simp only [decide_eq_false_iff_not]
            omega
          rw [e1, e2, e3]
          simp only [eq_self_iff_true, Bool.false_eq_true, if_true, if_false]
          congr 1 <;> omega
        · rw [if_neg h5]
          have e1 : (decide (10 ≤ c)) = false := by simpa using h10
          have e2 : (decide (5 ≤ c ∧ c < 10)) = false := by
            simp only [decide_eq_false_iff_not]
            omega
          have e3 : (decide (c < 5)) = true := by
            simp only [decide_eq_true_eq]
            omega
          rw [e1, e2, e3]
          simp only [eq_self_iff_true, Bool.false_eq_true, if_true, if_false]
          congr 1 <;> omega

theorem classifyActivity_eq (counts : List Nat) :
    classifyActivity counts
      = { high := counts.countP (fun c => decide (10 ≤ c)),
          medium := counts.countP (fun c => decide (5 ≤ c ∧ c < 10)),
          low := counts.countP (fun c => decide (c < 5)) } := by
  rw [classifyActivity, classifyActivity_fold]
  simp

theorem countP_tiers_partition (counts : List Nat) :
    counts.countP (fun c => decide (10 ≤ c))
      + counts.countP (fun c => decide (5 ≤ c ∧ c < 10))
      + counts.countP (fun c => decide (c < 5)) = counts.length := by
  induction counts with
  | nil => simp
  | cons c cs ih =>
      rw [List.countP_cons, List.countP_cons, List.countP_cons, List.length_cons]
      by_cases h10 : 10 ≤ c
      · have e1 : (decide (10 ≤ c)) = true := by simpa using h10
        have e2 : (decide (5 ≤ c ∧ c < 10)) = false := by
          simp only [decide_eq_false_iff_not]
          omega
        have e3 : (decide (c < 5)) = false := by
          simp only [decide_eq_false_iff_not]
          omega
        rw [e1, e2, e3]
        simp only [eq_self_iff_true, Bool.false_eq_true, if_true, if_false]
        omega
      · by_cases h5 : 5 ≤ c
        · have e1 : (decide (10 ≤ c)) = false := by simpa using h10
          have e2 : (decide (5 ≤ c ∧ c < 10)) = true := by
            simp only [decide_eq_true_eq]
            omega
          have e3 : (decide (c < 5)) = false := by
            simp only [decide_eq_false_iff_not]
            omega
          rw [e1, e2, e3]
          simp only [eq_self_iff_true, Bool.false_eq_true, if_true, if_false]
          omega
        · have e1 : (decide (10 ≤ c)) = false := by simpa using h10
          have e2 : (decide (5 ≤ c ∧ c < 10)) = false := by
            simp only [decide_eq_false_iff_not]
            omega
          have e3 : (decide (c < 5)) = true := by
            simp only [decide_eq_true_eq]
            omega
          rw [e1, e2, e3]
          simp only [eq_self_iff_true, Bool.false_eq_true, if_true, if_false]
          omega

/-- Book 1 of the concrete scenario in the specification. -/
def bookOne : Book :=
  { id := "1", title := "A", author := "Smith", genre := "Sci-Fi",
    year := 2020, rating := 9 / 2 }

/-- Book 2 of the concrete scenario in the specification. -/
def bookTwo : Book :=
  { id := "2", title := "B", author := "Jones", genre := "Fantasy",
    year := 2019, rating := 4 }

/-- The single rating of the concrete scenario. -/
def ratingOne : Rating := { user_id := "u1", book_id := "1", value := 5 }

/-- Catalog of the concrete scenario. -/
def scenarioBooks : List Book := [bookOne, bookTwo]

/-- Ratings of the concrete scenario. -/
def scenarioRatings : List Rating := [ratingOne]

/-- The recommendation the code actually produces in the concrete scenario. -/
def scenarioRecommendation : Recommendation :=
  { book_id := "2", title := "B", author := "Jones", genre := "Fantasy",
    score := 0, reason := "Similar readers also like" }

/-- C1 counterexample: in the concrete scenario the code returns book 2 with
score exactly 0, not approximately 0.24, because the 0.3-weighted component is
the average of the ratings the dataset holds for the book (book 2 has none, so
it is 0), not the rating field of the Book record. -/
theorem C1_counterexample :
    (recommend_batch initEngine ["u1"] scenarioRatings scenarioBooks 1).1
      = Except.ok [("u1", [scenarioRecommendation])]
    ∧ scenarioRecommendation.score = 0
    ∧ ¬ (|scenarioRecommendation.score - 6 / 25| < 1 / 10) := by
  refine ⟨?_, rfl, ?_⟩
  · norm_num +decide [recommend_batch, batchAccum, recommend_single_user,
      recommend_for_user_cached, LruCache.getOrCompute, cacheFind, initEngine,
      initCache, recoCompute, recommend_compute, candidate_scores,
      sortByScoreDesc, insertDesc, calculate_user_profile,
      calculate_book_similarity, avg_rating_for_book, scenarioBooks,
      scenarioRatings, ratingOne, bookOne, bookTwo, formatRecommendation,
      generate_reason, scenarioRecommendation]
  · rw [show scenarioRecommendation.score = 0 from rfl]
    rw [show |(0 : ℚ) - 6 / 25| = 6 / 25 by
      rw [zero_sub, abs_neg, abs_of_nonneg (by norm_num : (0 : ℚ) ≤ 6 / 25)]]
    norm_num

/-- C1 (amended): in the concrete scenario, recommend_batch for user u1 with
k equal to 1 excludes the already rated book 1 and returns book 2 with score
exactly 0, following the rule final_score = similarity times 0.7 plus the
average dataset rating of the book divided by 5 times 0.3, where the average
is 0 for a book without ratings. -/
theorem C1_amended_scenario :
    (recommend_batch initEngine ["u1"] scenarioRatings scenarioBooks 1).1
      = Except.ok [("u1", [scenarioRecommendation])]
    ∧ avg_rating_for_book scenarioRatings "2" = 0
    ∧ scenarioRecommendation.score
        = calculate_book_similarity bookTwo
            (calculate_user_profile "u1" scenarioRatings scenarioBooks) * (7 / 10)
          + (avg_rating_for_book scenarioRatings "2" / 5) * (3 / 10) := by
  refine ⟨?_, ?_, ?_⟩
  · norm_num +decide [recommend_batch, batchAccum, recommend_single_user,
      recommend_for_user_cached, LruCache.getOrCompute, cacheFind, initEngine,
      initCache, recoCompute, recommend_compute, candidate_scores,
      sortByScoreDesc, insertDesc, calculate_user_profile,
      calculate_book_similarity, avg_rating_for_book, scenarioBooks,
      scenarioRatings, ratingOne, bookOne, bookTwo, formatRecommendation,
      generate_reason, scenarioRecommendation]
  · norm_num +decide [avg_rating_for_book, scenarioRatings, ratingOne]
  · rw [show scenarioRecommendation.score = 0 from rfl]
    norm_num +decide [calculate_user_profile, calculate_book_similarity,
      avg_rating_for_book, scenarioBooks, scenarioRatings, ratingOne,
      bookOne, bookTwo]

/-- C2: no recommendation returned by recommend_batch references a book the
user has already rated, whatever the rating value, for every engine state
whose cache holds genuine computed values. -/
theorem C2_no_rated_book_recommended :
    ∀ (s : EngineState) (uids : List String) (r : List Rating) (b : List Book)
      (k : Nat) (m : List (String × List Recommendation)),
      (∀ e ∈ s.cache.entries, e.2 = recoCompute e.1) →
      (recommend_batch s uids r b k).1 = Except.ok m →
      ∀ uid recs, (uid, recs) ∈ m → ∀ rec ∈ recs, ∀ rt ∈ r,
        rt.user_id = uid → rec.book_id ≠ rt.book_id := by
  intro s uids r b k m hwf hok uid recs hmem rec hrec rt hrt huid
  have hs : s.shutdown_flag = false := by
    by_contra hs
    rw [Bool.not_eq_false] at hs
    unfold recommend_batch at hok
    rw [if_pos hs] at hok
    exact absurd hok (by simp)
  have hbo := recommend_batch_ok s uids r b k hs hwf
  rw [hbo.1] at hok
  injection hok with hok
  subst hok
  obtain ⟨u, hu, heq⟩ := List.mem_map.mp hmem
  have huu : u = uid := congrArg Prod.fst heq
  subst huu
  have hrecs : recs = ((recoCompute (u, r, b)).take k).map formatRecommendation :=
    (congrArg Prod.snd heq).symm
  subst hrecs
  obtain ⟨sb, hsb, rfl⟩ := List.mem_map.mp hrec
  have hsb' : sb ∈ recommend_compute u r b :=
    List.mem_of_mem_take hsb
  have := recommend_compute_not_rated sb hsb' rt hrt huid
  exact this

/-- Witness for C2 at the concrete scenario: the single returned
recommendation names book 2, not the rated book 1. -/
theorem C2_witness :
    scenarioRecommendation.book_id ≠ ratingOne.book_id :=
  C2_no_rated_book_recommended initEngine ["u1"] scenarioRatings scenarioBooks
    1 [("u1", [scenarioRecommendation])]
    (by simp [initEngine, initCache])
    (by norm_num +decide [recommend_batch, batchAccum, recommend_single_user,
      recommend_for_user_cached, LruCache.getOrCompute, cacheFind, initEngine,
      initCache, recoCompute, recommend_compute, candidate_scores,
      sortByScoreDesc, insertDesc, calculate_user_profile,
      calculate_book_similarity, avg_rating_for_book, scenarioBooks,
      scenarioRatings, ratingOne, bookOne, bookTwo, formatRecommendation,
      generate_reason, scenarioRecommendation])
    "u1" [scenarioRecommendation] (by simp)
    scenarioRecommendation (by simp)
    ratingOne (by simp [scenarioRatings]) rfl

/-- C5: per-user failures are isolated.  The per-user computation is an
arbitrary fallible function; the result gathering of recommend_batch maps a
raising user to the empty list, keeps every input user id in the mapping, and
leaves the entry of every other user exactly as it would be had the failing user
not been in the batch.  No per-user failure surfaces as a batch error: the
gathering is total. -/
theorem C5_failure_isolation :
    ∀ (f : String → Except String (List Recommendation)) (uids : List String)
      (u e : String),
      f u = Except.error e →
      (gather_results f uids).map Prod.fst = uids ∧
      (∀ p ∈ gather_results f uids, p.1 = u → p.2 = []) ∧
      (∀ v, v ≠ u →
        List.lookup v (gather_results f uids)
          = List.lookup v (gather_results f (uids.filter (fun x => !(x == u))))) := by
  intro f uids u e hfu
  refine ⟨?_, ?_, ?_⟩
  · rw [gather_results, List.map_map]
    exact List.map_id'' (fun x => rfl) uids
  · intro p hp hpu
    rw [gather_results, List.mem_map] at hp
    obtain ⟨x, hx, rfl⟩ := hp
    dsimp only at hpu ⊢
    subst hpu
    rw [hfu]
  · intro v hv
    induction uids with
    | nil => rfl
    | cons x rest ih =>
        rw [gather_results, List.map_cons, List.filter_cons]
        by_cases hxu : x = u
        · subst hxu
          rw [if_neg (by simp)]
          rw [List.lookup_cons, beq_false_of_ne hv]
          exact ih
        · rw [if_pos (by simpa using hxu)]
          rw [gather_results, List.map_cons]
          by_cases hvx : v = x
          · subst hvx
            rw [List.lookup_cons, List.lookup_cons, beq_self_eq_true]
          · rw [List.lookup_cons, List.lookup_cons, beq_false_of_ne hvx]
            exact ih

/-- Per-user computation used to exercise the failure isolation theorem. -/
def failingCompute : String → Except String (List Recommendation) :=
  fun u => if u = "u2" then Except.error "boom" else Except.ok [scenarioRecommendation]

/-- Witness for C5: a batch of three users in which u2 raises still yields an
entry for every user. -/
theorem C5_witness :
    (gather_results failingCompute ["u1", "u2", "u3"]).map Prod.fst
      = ["u1", "u2", "u3"] :=
  (C5_failure_isolation failingCompute ["u1", "u2", "u3"] "u2" "boom" rfl).1

/-- C6 counterexample: after one miss the counters read one; clear_cache
resets them to zero instead of leaving them unchanged, following the CPython
cache_clear semantics of clearing the cache and the cache statistics. -/
theorem C6_counterexample :
    (recommend_batch initEngine ["u1"] scenarioRatings scenarioBooks 1).2.cache.misses = 1
    ∧ ((recommend_batch initEngine ["u1"] scenarioRatings scenarioBooks
        1).2.clearCache).cache.misses = 0
    ∧ (1 : Nat) ≠ 0 := by
  refine ⟨?_, ?_, by decide⟩
  · norm_num +decide [recommend_batch, batchAccum, recommend_single_user,
      recommend_for_user_cached, LruCache.getOrCompute, cacheFind, initEngine,
      initCache, recoCompute, recommend_compute, candidate_scores,
      sortByScoreDesc, insertDesc, calculate_user_profile,
      calculate_book_similarity, avg_rating_for_book, scenarioBooks,
      scenarioRatings, ratingOne, bookOne, bookTwo, formatRecommendation,
      generate_reason, scenarioRecommendation]
  · rfl

/-- C6 (amended): clear drops every entry, so the current size becomes zero,
and it also resets the hit and miss counters to zero, keeping only maxsize;
the first cached call after a clear is always a miss. -/
theorem C6_amended_clear_resets :
    ∀ c : LruCache RecoKey (List ScoredBook),
      c.clear.currsize = 0 ∧ c.clear.hits = 0 ∧ c.clear.misses = 0 ∧
      c.clear.maxsize = c.maxsize ∧
      ∀ key : RecoKey, (c.clear.getOrCompute key recoCompute).2.misses = 1 := by
  intro c
  refine ⟨rfl, rfl, rfl, rfl, ?_⟩
  intro key
  rw [getOrCompute_miss recoCompute (by rw [LruCache.clear]; rfl)]
  rfl

/-- Witness for C6 (amended): clearing the cache produced by the concrete
batch resets the miss counter to zero. -/
theorem C6_witness :
    ((recommend_batch initEngine ["u1"] scenarioRatings scenarioBooks
        1).2.cache.clear).misses = 0 :=
  (C6_amended_clear_resets
    (recommend_batch initEngine ["u1"] scenarioRatings scenarioBooks
      1).2.cache).2.2.1

/-- C7 counterexample: a batch with one user without ratings produces all-zero
tier counts, so the tiers sum to 0, not to the batch size 1; users with no
ratings never enter the counting dictionary. -/
theorem C7_counterexample :
    user_activity_levels ["u1"] [] = { high := 0, medium := 0, low := 0 }
    ∧ (user_activity_levels ["u1"] []).high
        + (user_activity_levels ["u1"] []).medium
        + (user_activity_levels ["u1"] []).low = 0
    ∧ (["u1"] : List String).length = 1 := by
  refine ⟨rfl, rfl, rfl⟩

/-- C7 (amended): the aggregation classifies each batch user that has at
least one rating into exactly one tier by the total rating count of that user, at
least 10 high, at least 5 medium, otherwise low; the three tier counts sum to
the number of distinct batch users having at least one rating, not to the
batch size, because zero-rating users never enter the counter dictionary. -/
theorem C7_amended_user_statistics :
    ∀ (user_ids : List String) (ratings : List Rating),
      user_activity_levels user_ids ratings
        = { high := ((user_ratings_count user_ids ratings).map
              Prod.snd).countP (fun c => decide (10 ≤ c)),
            medium := ((user_ratings_count user_ids ratings).map
              Prod.snd).countP (fun c => decide (5 ≤ c ∧ c < 10)),
            low := ((user_ratings_count user_ids ratings).map
              Prod.snd).countP (fun c => decide (c < 5)) } ∧
      (user_activity_levels user_ids ratings).high
          + (user_activity_levels user_ids ratings).medium
          + (user_activity_levels user_ids ratings).low
        = (user_ratings_count user_ids ratings).length ∧
      (∀ u n, (u, n) ∈ user_ratings_count user_ids ratings →
        u ∈ user_ids
          ∧ n = (ratings.filter (fun rt => rt.user_id == u)).length) ∧
      (user_ratings_count user_ids ratings).length
        = ((ratings.filter (fun rt => decide (rt.user_id ∈ user_ids))).map
            Rating.user_id).toFinset.card := by
  intro user_ids ratings
  have hnodup : ((user_ratings_count user_ids ratings).map Prod.fst).Nodup := by
    rw [user_ratings_count_eq_fold]
    exact urc_fold_nodup user_ids ratings [] (by simp)
  refine ⟨?_, ?_, ?_, ?_⟩
  · rw [user_activity_levels, classifyActivity_eq]
  · rw [user_activity_levels, classifyActivity_eq]
    dsimp only
    rw [countP_tiers_partition, List.length_map]
  · intro u n hmem
    have hu : u ∈ user_ids := by
      have hk : u ∈ (user_ratings_count user_ids ratings).map Prod.fst :=
        List.mem_map.mpr ⟨(u, n), hmem, rfl⟩
      rw [user_ratings_count_eq_fold] at hk
      rcases (urc_fold_keys_mem user_ids ratings [] u).mp hk with h | h
      · simp at h
      · exact h.1
    refine ⟨hu, ?_⟩
    have hfind : cacheFind u (user_ratings_count user_ids ratings) = some n :=
      cacheFind_of_mem_nodup hnodup hmem
    have hgd := urc_fold_find user_ids ratings [] u
    rw [← user_ratings_count_eq_fold, hfind, if_pos hu] at hgd
    simpa [cacheFind] using hgd
  · have hlen1 : (user_ratings_count user_ids ratings).length
        = ((user_ratings_count user_ids ratings).map Prod.fst).length :=
      (List.length_map _ _).symm
    rw [hlen1, ← List.toFinset_card_of_nodup hnodup]
    congr 1
    ext x
    simp only [List.mem_toFinset]
    rw [user_ratings_count_eq_fold]
    rw [urc_fold_keys_mem user_ids ratings [] x]
    simp only [List.map_nil, List.not_mem_nil, false_or, List.mem_map,
      List.mem_filter, decide_eq_true_eq]
    constructor
    · rintro ⟨hx, rt, hrt, hid⟩
      exact ⟨rt, ⟨hrt, hid ▸ hx⟩, hid⟩
    · rintro ⟨rt, ⟨hrt, hin⟩, hid⟩
      exact ⟨hid ▸ hin, rt, hrt, hid⟩

/-- Witness for C7 (amended): with one user holding one rating, the tier
counts sum to the single counted user. -/
theorem C7_witness :
    (user_activity_levels ["u1"] [ratingOne]).high
        + (user_activity_levels ["u1"] [ratingOne]).medium
        + (user_activity_levels ["u1"] [ratingOne]).low
      = (user_ratings_count ["u1"] [ratingOne]).length :=
  (C7_amended_user_statistics ["u1"] [ratingOne]).2.1

/-- C9: shutdown is terminal and idempotent.  Setting the flag once leaves it
set after any sequence of further operations, a second shutdown is the
identity, and every later recommend_batch fails fast with the shutdown error
while leaving the engine state untouched. -/
theorem C9_shutdown_terminal_idempotent :
    ∀ (s : EngineState) (ops : List EngineOp) (uids : List String)
      (r : List Rating) (b : List Book) (k : Nat),
      (s.shutdown).shutdown_flag = true ∧
      (s.shutdown).shutdown = s.shutdown ∧
      (applyOps s.shutdown ops).shutdown_flag = true ∧
      (recommend_batch (applyOps s.shutdown ops) uids r b k).1
        = Except.error "Recommendation engine is shutdown" ∧
      (recommend_batch (applyOps s.shutdown ops) uids r b k).2
        = applyOps s.shutdown ops := by
  have hflag : ∀ s : EngineState, (s.shutdown).shutdown_flag = true := by
    intro s
    rw [EngineState.shutdown]
    by_cases hs : s.shutdown_flag
    · rw [if_pos hs]
      exact hs
    · rw [if_neg hs]
  have hstep : ∀ (s : EngineState) (op : EngineOp),
      s.shutdown_flag = true → (applyOp s op).shutdown_flag = true := by
    intro s op hs
    cases op with
    | batch uids r b k => rw [applyOp, recommend_batch_flag]; exact hs
    | stop => rw [applyOp]; exact hflag s
    | clearTheCache => rw [applyOp]; exact hs
  have hops : ∀ (ops : List EngineOp) (s : EngineState),
      s.shutdown_flag = true → (applyOps s ops).shutdown_flag = true := by
    intro ops
    induction ops with
    | nil => intro s hs; exact hs
    | cons op ops ih =>
        intro s hs
        rw [applyOps, List.foldl_cons]
        exact ih _ (hstep s op hs)
  intro s ops uids r b k
  have h1 := hflag s
  have h3 := hops ops s.shutdown h1
  refine ⟨h1, ?_, h3, ?_, ?_⟩
  · rw [EngineState.shutdown, if_pos h1]
  · rw [recommend_batch, if_pos h3]
  · rw [recommend_batch, if_pos h3]

/-- Batch of 129 distinct users, one more than the cache capacity. -/
def thrashUsers : List String := (List.range 129).map (fun i => "u" ++ toString i)

set_option maxRecDepth 10000 in
/-- C3 counterexample: with 129 distinct users, one more than the capacity of
128, LRU eviction makes the second structurally identical batch recompute
every user: the first call misses 129 times, and the second call adds 129
further misses and no hit, refuting the claim for every batch size. -/
theorem C3_counterexample :
    (recommend_batch initEngine thrashUsers [] [] 5).2.cache.misses = 129 ∧
    (recommend_batch initEngine thrashUsers [] [] 5).2.cache.hits = 0 ∧
    (recommend_batch (recommend_batch initEngine thrashUsers [] [] 5).2
        thrashUsers [] [] 5).2.cache.misses = 258 ∧
    (recommend_batch (recommend_batch initEngine thrashUsers [] [] 5).2
        thrashUsers [] [] 5).2.cache.hits = 0 := by
  decide

/-- C3 (amended): repeating recommend_batch with structurally identical
inputs returns identical per-user output lists, for every input and cache
capacity; and, provided the number of distinct user ids in the batch does not
exceed the cache capacity, the second call performs one cache hit per user
and no miss.  The cache key is the content of the argument tuple, so
equality of content suffices. -/
theorem C3_amended_idempotent :
    ∀ (s : EngineState) (uids : List String) (r : List Rating) (b : List Book)
      (k : Nat),
      CacheGood recoCompute s.cache →
      s.shutdown_flag = false →
      (recommend_batch s uids r b k).1
          = (recommend_batch (recommend_batch s uids r b k).2 uids r b k).1 ∧
      (uids.toFinset.card ≤ s.cache.maxsize →
        (recommend_batch (recommend_batch s uids r b k).2 uids r b
            k).2.cache.hits
          = (recommend_batch s uids r b k).2.cache.hits + uids.length ∧
        (recommend_batch (recommend_batch s uids r b k).2 uids r b
            k).2.cache.misses
          = (recommend_batch s uids r b k).2.cache.misses) := by
  intro s uids r b k hgood hrun
  have hbo1 := recommend_batch_ok s uids r b k hrun hgood.1
  have hflag1 : (recommend_batch s uids r b k).2.shutdown_flag = false := by
    rw [recommend_batch_flag]
    exact hrun
  have hgood1 : CacheGood recoCompute (recommend_batch s uids r b k).2.cache :=
    recommend_batch_cache_good s uids r b k hgood
  have hbo2 := recommend_batch_ok (recommend_batch s uids r b k).2 uids r b k
    hflag1 hgood1.1
  have hinj : Function.Injective (fun u : String => (u, r, b)) :=
    fun x y hxy => congrArg Prod.fst hxy
  have hkeys_card : (uids.map (fun u => (u, r, b))).toFinset.card
      = uids.toFinset.card := by
    clear hbo1 hbo2 hflag1 hgood1 hgood hrun
    induction uids with
    | nil => simp
    | cons x xs ih =>
        rw [List.map_cons, List.toFinset_cons, List.toFinset_cons]
        have hmm : (fun u : String => (u, r, b)) x
            ∈ (xs.map (fun u => (u, r, b))).toFinset ↔ x ∈ xs.toFinset := by
          simp only [List.mem_toFinset, List.mem_map]
          constructor
          · rintro ⟨y, hy, he⟩
            rwa [← hinj he]
          · intro h
            exact ⟨x, h, rfl⟩
        by_cases hx : x ∈ xs.toFinset
        · rw [Finset.insert_eq_self.mpr (hmm.mpr hx),
            Finset.insert_eq_self.mpr hx, ih]
        · rw [Finset.card_insert_of_not_mem (fun hc => hx (hmm.mp hc)),
            Finset.card_insert_of_not_mem hx, ih]
  refine ⟨?_, ?_⟩
  · rw [hbo1.1, hbo2.1]
  · intro hcard
    have hpresent : ∀ key ∈ uids.map (fun u => (u, r, b)),
        key ∈ (recommend_batch s uids r b k).2.cache.entries.map Prod.fst := by
      rw [hbo1.2]
      exact processKeys_presence_all _ s.cache hgood.2
        (by rw [hkeys_card]; exact hcard)
    have hhits := processKeys_all_hits recoCompute
      (uids.map (fun u => (u, r, b)))
      (recommend_batch s uids r b k).2.cache hpresent
    refine ⟨?_, ?_⟩
    · rw [hbo2.2, hhits.1, List.length_map]
    · rw [hbo2.2, hhits.2.1]

/-- Witness for C3 (amended) at the concrete scenario with one user. -/
theorem C3_witness :
    (recommend_batch initEngine ["u1"] scenarioRatings scenarioBooks 1).1
        = (recommend_batch
            (recommend_batch initEngine ["u1"] scenarioRatings scenarioBooks 1).2
            ["u1"] scenarioRatings scenarioBooks 1).1 ∧
    ((["u1"] : List String).toFinset.card ≤ initEngine.cache.maxsize →
      (recommend_batch
          (recommend_batch initEngine ["u1"] scenarioRatings scenarioBooks 1).2
          ["u1"] scenarioRatings scenarioBooks 1).2.cache.hits
        = (recommend_batch initEngine ["u1"] scenarioRatings scenarioBooks
            1).2.cache.hits + (["u1"] : List String).length ∧
      (recommend_batch
          (recommend_batch initEngine ["u1"] scenarioRatings scenarioBooks 1).2
          ["u1"] scenarioRatings scenarioBooks 1).2.cache.misses
        = (recommend_batch initEngine ["u1"] scenarioRatings scenarioBooks
            1).2.cache.misses) :=
  C3_amended_idempotent initEngine ["u1"] scenarioRatings scenarioBooks 1
    ⟨by simp [initEngine, initCache], by simp [initEngine, initCache]⟩
    rfl

/-- C4 (amended): the per-user list is the first min(k, 10) elements of the
stable descending sort of the scored unrated books, formatted; the sort is
characterised as the unique sorted list preserving every score class of the
candidates, and the default of the k parameter of recommend_batch is 5. -/
theorem C4_amended_sorted_truncated :
    ∀ (c : LruCache RecoKey (List ScoredBook)) (uid : String) (r : List Rating)
      (b : List Book) (k : Nat) (l' : List ScoredBook),
      (∀ e ∈ c.entries, e.2 = recoCompute e.1) →
      SortedDescBy l' →
      SameScoreClasses l' (candidate_scores uid r b) →
      (recommend_single_user c uid r b k).1
          = ((l'.take 10).take k).map formatRecommendation ∧
      (∀ (s : EngineState) (uids : List String),
        recommend_batch_default s uids r b = recommend_batch s uids r b 5) := by
  intro c uid r b k l' hwf hsort hcls
  have hl : l' = sortByScoreDesc (candidate_scores uid r b) := by
    refine sorted_sameScoreClasses_eq hsort (sortedDesc_sortByScoreDesc _) ?_
    intro q
    rw [hcls q, filter_sortByScoreDesc (candidate_scores uid r b) q]
  constructor
  · rw [recommend_single_user_fst hwf]
    rw [show recoCompute (uid, r, b) = recommend_compute uid r b from rfl]
    rw [recommend_compute, ← hl]
  · intro s uids
    rfl

/-- Witness for C4 (amended) at the concrete scenario, where the candidate
list is the single zero-scored book 2 and is already sorted. -/
theorem C4_witness :
    (recommend_single_user initCache "u1" scenarioRatings scenarioBooks 1).1
        = ((([⟨"2", "B", "Jones", "Fantasy", 0⟩] : List ScoredBook).take
            10).take 1).map formatRecommendation ∧
    (∀ (s : EngineState) (uids : List String),
      recommend_batch_default s uids scenarioRatings scenarioBooks
        = recommend_batch s uids scenarioRatings scenarioBooks 5) :=
  C4_amended_sorted_truncated initCache "u1" scenarioRatings scenarioBooks 1
    [⟨"2", "B", "Jones", "Fantasy", 0⟩]
    (by simp [initCache])
    (by simp)
    (by
      intro q
      norm_num +decide [candidate_scores, calculate_user_profile,
        calculate_book_similarity, avg_rating_for_book, scenarioBooks,
        scenarioRatings, ratingOne, bookOne, bookTwo])

/-- Catalog book with no distinguishing features used for the truncation
counterexample. -/
def plainBook (i : String) : Book :=
  { id := i, title := "T", author := "A", genre := "G", year := 2020, rating := 1 }

/-- The recommendation the engine produces for a plain book with no ratings. -/
def plainRec (i : String) : Recommendation :=
  { book_id := i, title := "T", author := "A", genre := "G", score := 0,
    reason := "Similar readers also like" }

/-- Six-book catalog. -/
def sixBooks : List Book :=
  [plainBook "0", plainBook "1", plainBook "2", plainBook "3", plainBook "4",
   plainBook "5"]

/-- Eleven-book catalog. -/
def elevenBooks : List Book :=
  [plainBook "0", plainBook "1", plainBook "2", plainBook "3", plainBook "4",
   plainBook "5", plainBook "6", plainBook "7", plainBook "8", plainBook "9",
   plainBook "10"]

/-- C4 counterexample: with six unrated catalog books and no ratings, a
recommend_batch call that leaves k at its default returns 5 recommendations,
not the 6 a default of 10 would give; and with eleven unrated books and k of
11 the engine returns 10 recommendations, not the first 11 of the sorted
candidates, because the cached list is truncated to 10 before k applies. -/
theorem C4_counterexample :
    (recommend_batch_default initEngine ["u"] [] sixBooks).1
      = Except.ok [("u", [plainRec "0", plainRec "1", plainRec "2",
          plainRec "3", plainRec "4"])]
    ∧ ([plainRec "0", plainRec "1", plainRec "2", plainRec "3",
        plainRec "4"] : List Recommendation).length = 5
    ∧ (sortByScoreDesc (candidate_scores "u" [] sixBooks)).length = 6
    ∧ (recommend_single_user initCache "u" [] elevenBooks 11).1.length = 10
    ∧ (sortByScoreDesc (candidate_scores "u" [] elevenBooks)).length = 11 := by
  refine ⟨?_, rfl, ?_, ?_, ?_⟩
  · norm_num +decide [recommend_batch_default, recommend_batch, batchAccum,
      recommend_single_user, recommend_for_user_cached, LruCache.getOrCompute,
      cacheFind, initEngine, initCache, recoCompute, recommend_compute,
      candidate_scores, sortByScoreDesc, insertDesc, calculate_user_profile,
      calculate_book_similarity, avg_rating_for_book, formatRecommendation,
      generate_reason, plainBook, plainRec, sixBooks]
  · norm_num +decide [candidate_scores, sortByScoreDesc, insertDesc,
      calculate_user_profile, calculate_book_similarity, avg_rating_for_book,
      plainBook, sixBooks]
  · norm_num +decide [recommend_single_user, recommend_for_user_cached,
      LruCache.getOrCompute, cacheFind, initCache, recoCompute,
      recommend_compute, candidate_scores, sortByScoreDesc, insertDesc,
      calculate_user_profile, calculate_book_similarity, avg_rating_for_book,
      formatRecommendation, generate_reason, plainBook, elevenBooks]
  · norm_num +decide [candidate_scores, sortByScoreDesc, insertDesc,
      calculate_user_profile, calculate_book_similarity, avg_rating_for_book,
      plainBook, elevenBooks]

/-- C8: with every rating value between 1 and 5 and every catalog rating
field between 0 and 5, every returned recommendation score lies between 0
and 1: the similarity is normalized into the unit interval and the average
rating component contributes at most 0.3. -/
theorem C8_scores_bounded :
    ∀ (s : EngineState) (uids : List String) (r : List Rating) (b : List Book)
      (k : Nat) (m : List (String × List Recommendation)),
      (∀ e ∈ s.cache.entries, e.2 = recoCompute e.1) →
      (∀ rt ∈ r, (1 : ℤ) ≤ rt.value ∧ rt.value ≤ 5) →
      (∀ bk ∈ b, (0 : ℚ) ≤ bk.rating ∧ bk.rating ≤ 5) →
      (recommend_batch s uids r b k).1 = Except.ok m →
      ∀ uid recs, (uid, recs) ∈ m → ∀ rec ∈ recs,
        0 ≤ rec.score ∧ rec.score ≤ 1 := by
  intro s uids r b k m hwf hr hb hok uid recs hmem rec hrec
  have hs : s.shutdown_flag = false := by
    by_contra hs
    rw [Bool.not_eq_false] at hs
    unfold recommend_batch at hok
    rw [if_pos hs] at hok
    exact absurd hok (by simp)
  have hbo := recommend_batch_ok s uids r b k hs hwf
  rw [hbo.1] at hok
  injection hok with hok
  subst hok
  obtain ⟨u, hu, heq⟩ := List.mem_map.mp hmem
  have hrecs : recs = ((recoCompute (u, r, b)).take k).map formatRecommendation :=
    (congrArg Prod.snd heq).symm
  subst hrecs
  obtain ⟨sb, hsb, rfl⟩ := List.mem_map.mp hrec
  have hsb' : sb ∈ recommend_compute u r b := List.mem_of_mem_take hsb
  exact recommend_compute_score_bounds hr sb hsb'

/-- Witness for C8 at the concrete scenario: the returned score 0 is inside
the unit interval. -/
theorem C8_witness :
    0 ≤ scenarioRecommendation.score ∧ scenarioRecommendation.score ≤ 1 :=
  C8_scores_bounded initEngine ["u1"] scenarioRatings scenarioBooks 1
    [("u1", [scenarioRecommendation])]
    (by simp [initEngine, initCache])
    (by
      intro rt hrt
      simp only [scenarioRatings, List.mem_singleton] at hrt
      subst hrt
      constructor <;> norm_num [ratingOne])
    (by
      intro bk hbk
      simp only [scenarioBooks, List.mem_cons, List.mem_singleton,
        List.not_mem_nil, or_false] at hbk
      rcases hbk with rfl | rfl
      · constructor <;> norm_num [bookOne]
      · constructor <;> norm_num [bookTwo])
    (by norm_num +decide [recommend_batch, batchAccum, recommend_single_user,
      recommend_for_user_cached, LruCache.getOrCompute, cacheFind, initEngine,
      initCache, recoCompute, recommend_compute, candidate_scores,
      sortByScoreDesc, insertDesc, calculate_user_profile,
      calculate_book_similarity, avg_rating_for_book, scenarioBooks,
      scenarioRatings, ratingOne, bookOne, bookTwo, formatRecommendation,
      generate_reason, scenarioRecommendation])
    "u1" [scenarioRecommendation] (by simp)
    scenarioRecommendation (by simp)

theorem getOrCompute_key_present {κ ν : Type} [DecidableEq κ] (f : κ → ν)
    (c : LruCache κ ν) (key : κ) (hmax : 0 < c.maxsize) :
    key ∈ (c.getOrCompute key f).2.entries.map Prod.fst := by
  cases hfind : cacheFind key c.entries with
  | some v =>
      rw [getOrCompute_hit f hfind]
      simp
  | none =>
      rw [getOrCompute_miss f hfind]
      simp only
      by_cases hlen : ((key, f key) :: c.entries).length > c.maxsize
      · rw [if_pos hlen]
        have hne : c.entries ≠ [] := by
          intro h
          rw [h, List.length_cons, List.length_nil] at hlen
          omega
        rw [show ((key, f key) :: c.entries) = [(key, f key)] ++ c.entries
            from rfl,
          List.dropLast_append_of_ne_nil _ hne]
        simp
      · rw [if_neg hlen]
        simp

/-- C10: the cache key does not include k and the cached value is the full
top ten list.  A second single-user call with any other k is a cache hit, the
k1 list is the k1 prefix of the k2 list whenever k1 is at most k2, and no
returned list ever exceeds ten entries, however large k is. -/
theorem C10_cache_key_excludes_k :
    ∀ (c : LruCache RecoKey (List ScoredBook)) (uid : String) (r : List Rating)
      (b : List Book) (k1 k2 : Nat),
      (∀ e ∈ c.entries, e.2 = recoCompute e.1) →
      0 < c.maxsize →
      (recommend_single_user (recommend_single_user c uid r b k1).2 uid r b
          k2).2.hits
        = (recommend_single_user c uid r b k1).2.hits + 1 ∧
      (recommend_single_user (recommend_single_user c uid r b k1).2 uid r b
          k2).2.misses
        = (recommend_single_user c uid r b k1).2.misses ∧
      (k1 ≤ k2 →
        (recommend_single_user c uid r b k1).1
          = ((recommend_single_user (recommend_single_user c uid r b k1).2
              uid r b k2).1).take k1) ∧
      (recommend_single_user c uid r b k1).1.length ≤ 10 ∧
      (recommend_single_user (recommend_single_user c uid r b k1).2 uid r b
          k2).1.length ≤ 10 := by
  intro c uid r b k1 k2 hwf hmax
  have hwf1 : ∀ e ∈ (recommend_single_user c uid r b k1).2.entries,
      e.2 = recoCompute e.1 := by
    rw [recommend_single_user_snd]
    exact getOrCompute_values _ hwf
  have hpres : (uid, r, b)
      ∈ (recommend_single_user c uid r b k1).2.entries.map Prod.fst := by
    rw [recommend_single_user_snd]
    exact getOrCompute_key_present recoCompute c (uid, r, b) hmax
  have hstep := getOrCompute_mem_hit (f := recoCompute) hpres
  have hlen10 : (recoCompute (uid, r, b)).length ≤ 10 := by
    rw [show recoCompute (uid, r, b) = recommend_compute uid r b from rfl,
      recommend_compute]
    exact List.length_take_le 10 _
  refine ⟨?_, ?_, ?_, ?_, ?_⟩
  · rw [recommend_single_user_snd]
    exact hstep.1
  · rw [recommend_single_user_snd]
    exact hstep.2.1
  · intro hk
    rw [recommend_single_user_fst hwf, recommend_single_user_fst hwf1,
      ← List.map_take, List.take_take, Nat.min_eq_left hk]
  · rw [recommend_single_user_fst hwf, List.length_map, List.length_take]
    omega
  · rw [recommend_single_user_fst hwf1, List.length_map, List.length_take]
    omega

/-- Witness for C10 at the concrete scenario with k1 of 1 followed by k2 of
15, a value beyond the ten-entry cap. -/
theorem C10_witness :
    (recommend_single_user
        (recommend_single_user initCache "u1" scenarioRatings scenarioBooks
          1).2 "u1" scenarioRatings scenarioBooks 15).2.hits
      = (recommend_single_user initCache "u1" scenarioRatings scenarioBooks
          1).2.hits + 1 ∧
    (recommend_single_user
        (recommend_single_user initCache "u1" scenarioRatings scenarioBooks
          1).2 "u1" scenarioRatings scenarioBooks 15).2.misses
      = (recommend_single_user initCache "u1" scenarioRatings scenarioBooks
          1).2.misses ∧
    (1 ≤ 15 →
      (recommend_single_user initCache "u1" scenarioRatings scenarioBooks 1).1
        = ((recommend_single_user
            (recommend_single_user initCache "u1" scenarioRatings
              scenarioBooks 1).2 "u1" scenarioRatings scenarioBooks
            15).1).take 1) ∧
    (recommend_single_user initCache "u1" scenarioRatings scenarioBooks
        1).1.length ≤ 10 ∧
    (recommend_single_user
        (recommend_single_user initCache "u1" scenarioRatings scenarioBooks
          1).2 "u1" scenarioRatings scenarioBooks 15).1.length ≤ 10 :=
  C10_cache_key_excludes_k initCache "u1" scenarioRatings scenarioBooks 1 15
    (by simp [initCache]) (by decide)

end BookReco
